import Mathlib

/-!
Verification of the document structural model and the reference/enumeration
validation engine of the lawyer-assistant repository
(`mcp_server/docx_parser.py` and `mcp_server/checks.py`).

The Python code is shallowly embedded: a document is an ordered list of
`Paragraph` records carrying the plain text together with the pieces of raw
markup the engine inspects (style name, explicit outline level, list-numbering
presence, field-code run children, bookmark names).  Python strings are
modelled over their character lists; the character classes used by the regular
expressions (`\s`, `\w`, digits, case folding) are modelled for the ASCII and
Latin-extended range actually exercised by the Czech legal patterns.
-/

set_option maxHeartbeats 1000000

namespace LawyerAssistant

/-! ## Python string primitives (ASCII / Latin-extended model) -/

/-- Python `str.strip()` whitespace class, ASCII part: space, tab, LF, CR,
vertical tab, form feed.  Also the model of the regex class `\s`. -/
def pyIsSpace (c : Char) : Bool :=
  c = ' ' || c = '\t' || c = '\n' || c = '\r' || c = '\x0b' || c = '\x0c'

/-- Regex word-character class `\w`: ASCII alphanumerics, underscore, and the
Latin-1 Supplement / Latin Extended-A letters (covers all Czech letters). -/
def pyIsWordChar (c : Char) : Bool :=
  c.isAlphanum || c = '_' || (0xC0 ≤ c.toNat && c.toNat ≤ 0x17F)

/-- Case folding for `re.IGNORECASE` matching, extended to the Czech
uppercase letters appearing in the patterns. -/
def czLower (c : Char) : Char :=
  match c with
  | 'Á' => 'á' | 'Č' => 'č' | 'Ď' => 'ď' | 'É' => 'é' | 'Ě' => 'ě'
  | 'Í' => 'í' | 'Ň' => 'ň' | 'Ó' => 'ó' | 'Ř' => 'ř' | 'Š' => 'š'
  | 'Ť' => 'ť' | 'Ú' => 'ú' | 'Ů' => 'ů' | 'Ý' => 'ý' | 'Ž' => 'ž'
  | _ => if 'A' ≤ c && c ≤ 'Z' then Char.ofNat (c.toNat + 32) else c

/-- Python `str.lstrip()` on a character list. -/
def lstripL (l : List Char) : List Char := l.dropWhile pyIsSpace

/-- Python `str.rstrip()` on a character list. -/
def rstripL (l : List Char) : List Char := (lstripL l.reverse).reverse

/-- Python `str.strip()` on a character list. -/
def stripL (l : List Char) : List Char := lstripL (rstripL l)

def pyStrip (s : String) : String := ⟨stripL s.data⟩
def pyRStrip (s : String) : String := ⟨rstripL s.data⟩
def pyLStrip (s : String) : String := ⟨lstripL s.data⟩

/-- Python `str.split()` (no argument): split on whitespace runs, dropping
empty tokens. -/
def splitWSAux : List Char → List Char → List (List Char)
  | [], acc => if acc.isEmpty then [] else [acc.reverse]
  | c :: cs, acc =>
      if pyIsSpace c then
        if acc.isEmpty then splitWSAux cs [] else acc.reverse :: splitWSAux cs []
      else splitWSAux cs (c :: acc)

def pySplitWS (s : String) : List String :=
  (splitWSAux s.data []).map (fun l => ⟨l⟩)

/-- Python `str.isdigit()` (ASCII digits model): nonempty and all digits. -/
def pyIsDigitStr (s : String) : Bool :=
  !s.data.isEmpty && s.data.all Char.isDigit

/-- Python `int(...)` on a digit string. -/
def parseNat (s : String) : Nat :=
  s.data.foldl (fun n c => n * 10 + (c.toNat - '0'.toNat)) 0

/-- Python slice `s[a:b]` (with `0 ≤ a ≤ b`). -/
def pySlice (l : List Char) (a b : Nat) : List Char := (l.drop a).take (b - a)

/-- `text[:80] + ("…" if len(text) > 80 else "")`. -/
def truncate80 (s : String) : String :=
  ⟨s.data.take 80⟩ ++ (if s.data.length > 80 then "…" else "")

/-! ## The paragraph model

A paragraph as the engine sees it: plain text plus the raw-markup facets
the Python code reads through `python-docx` / lxml:
* `styleName` — `paragraph.style.name or ""`;
* `outlineLvlVal` — the `w:val` attribute of `w:pPr/w:outlineLvl` when that
  whole chain is present;
* `numPr` — whether `w:pPr/w:numPr` is present (Word list item);
* `runChildren` — the children of the paragraph's `w:r` elements, in order,
  restricted to the node kinds the field-code scanner distinguishes;
* `bookmarkNames` — the `w:name` attributes of the paragraph's
  `w:bookmarkStart` descendants, in order. -/

inductive RunChild where
  | fldCharBegin : RunChild
  | fldCharSeparate : RunChild
  | fldCharEnd : RunChild
  | fldCharOther : RunChild
  | instrText (s : String) : RunChild
  | tText (s : String) : RunChild
  | otherChild : RunChild
deriving DecidableEq, Repr

structure Paragraph where
  text : String
  styleName : String
  outlineLvlVal : Option String := none
  numPr : Bool := false
  runChildren : List RunChild := []
  bookmarkNames : List String := []
deriving DecidableEq, Repr

/-! ## `_detect_heading_level` (docx_parser.py) -/

/-- Embedding of `_detect_heading_level`:
style `"Title"` → 0; style starting with `"Heading"` whose whitespace-split
has exactly two parts with a digit second part → that number; otherwise an
outline-level attribute whose value is a digit string `v` → `v + 1`;
otherwise not a heading. -/
def _detect_heading_level (p : Paragraph) : Option Nat :=
  if p.styleName = "Title" then some 0
  else if p.styleName.data.take 7 = "Heading".data then
    match pySplitWS p.styleName with
    | [_, d] => if pyIsDigitStr d then some (parseNat d) else outlineFallback p
    | _ => outlineFallback p
  else outlineFallback p
where
  /-- The XML fallback: `<w:pPr><w:outlineLvl w:val="v"/>` with `v` a digit
  string gives level `v + 1`. -/
  outlineFallback (p : Paragraph) : Option Nat :=
    match p.outlineLvlVal with
    | some v => if pyIsDigitStr v then some (parseNat v + 1) else none
    | none => none

/-! ## Heading records and the heading tree (`_build_heading_tree`) -/

/-- A flat heading entry of `load_document_structure`. -/
structure Heading where
  level : Nat
  text : String
  paragraph_index : Nat
deriving DecidableEq, Repr

/-- A node of the heading tree: `{level, text, paragraph_index, children}`. -/
inductive HNode where
  | mk (level : Nat) (text : String) (paragraph_index : Nat)
       (children : List HNode) : HNode

def HNode.level : HNode → Nat
  | .mk l _ _ _ => l

def HNode.children : HNode → List HNode
  | .mk _ _ _ cs => cs

/-- The heading data of a node. -/
def HNode.head : HNode → Heading
  | .mk l t i _ => ⟨l, t, i⟩

mutual

/-- Pre-order traversal of a node: the node itself, then its children. -/
def preorder : HNode → List Heading
  | .mk l t i cs => ⟨l, t, i⟩ :: preorderF cs

/-- Pre-order traversal of a forest. -/
def preorderF : List HNode → List Heading
  | [] => []
  | n :: ns => preorder n ++ preorderF ns

end

mutual

/-- All nodes of a tree (the node and its descendants). -/
def allNodes : HNode → List HNode
  | .mk l t i cs => .mk l t i cs :: allNodesF cs

/-- All nodes of a forest. -/
def allNodesF : List HNode → List HNode
  | [] => []
  | n :: ns => allNodes n ++ allNodesF ns

end

mutual

/-- Number of nodes of a tree. -/
def countNodes : HNode → Nat
  | .mk _ _ _ cs => 1 + countNodesF cs

/-- Number of nodes of a forest. -/
def countNodesF : List HNode → Nat
  | [] => 0
  | n :: ns => countNodes n + countNodesF ns

end

/-- An open frame of the tree-building stack: the heading of a node still
under construction, together with the children attached to it so far.
In the Python code children are attached by in-place mutation; here the
finished node is assembled when the frame is closed. -/
abbrev Frame := Heading × List HNode

/-- Close a frame into a finished node. -/
def closeFrame (fr : Frame) : HNode :=
  .mk fr.1.level fr.1.text fr.1.paragraph_index fr.2

/-- The `while stack and stack[-1]["level"] >= node["level"]: stack.pop()`
loop of `_build_heading_tree`.  The stack is kept innermost-first.  `carry`
holds the node closed by the previous iteration (if any), which is appended
to the children of the frame now on top; when a frame whose level is `≥ lvl`
is on top it is closed in turn, and when the stack runs out the carried node
joins the root list. -/
def popGEAux (lvl : Nat) (roots : List HNode) :
    List Frame → List HNode → List HNode × List Frame
  | [], carry => (roots ++ carry, [])
  | (h, cs) :: rest, carry =>
      if lvl ≤ h.level then
        popGEAux lvl roots rest [closeFrame (h, cs ++ carry)]
      else (roots, (h, cs ++ carry) :: rest)

/-- The popping loop started with nothing carried. -/
def popGE (lvl : Nat) (roots : List HNode) (stack : List Frame) :
    List HNode × List Frame :=
  popGEAux lvl roots stack []

/-- One iteration of the `for h in headings` loop of `_build_heading_tree`:
pop the frames whose level is `≥ h.level`, then open a frame for `h`. -/
def buildStep (st : List HNode × List Frame) (h : Heading) :
    List HNode × List Frame :=
  ((popGE h.level st.1 st.2).1, (h, []) :: (popGE h.level st.1 st.2).2)

/-- Embedding of `_build_heading_tree`: fold over the flat heading list,
then close every frame still open (levels are naturals, so popping with
threshold 0 closes everything). -/
def _build_heading_tree (headings : List Heading) : List HNode :=
  (popGE 0 (headings.foldl buildStep ([], [])).1
    (headings.foldl buildStep ([], [])).2).1

/-! ## `_find_parent_heading` and `check_whitespace` (checks.py) -/

/-- Embedding of `_find_parent_heading`: walk backwards from `idx - 1` to 0
and return the stripped text of the first heading paragraph found. -/
def _find_parent_heading (ps : List Paragraph) : Nat → Option String
  | 0 => none
  | i + 1 =>
      match ps.get? i with
      | some p =>
          if (_detect_heading_level p).isSome then some (pyStrip p.text)
          else _find_parent_heading ps i
      | none => _find_parent_heading ps i

/-- Scanner for `re.finditer(r"  +", text)`: `pos` is the absolute position
of the head of `l`, `run` the number of consecutive spaces immediately
before `pos`.  A pending run of two or more spaces is emitted when a
non-space character (or the end of the text) closes it. -/
def spaceRunsAux : List Char → Nat → Nat → List (Nat × Nat)
  | [], pos, run => if 2 ≤ run then [(pos - run, run)] else []
  | c :: cs, pos, run =>
      if c = ' ' then spaceRunsAux cs (pos + 1) (run + 1)
      else
        (if 2 ≤ run then [(pos - run, run)] else []) ++
          spaceRunsAux cs (pos + 1) 0

/-- The matches of `re.finditer(r"  +", text)`: the `(start, length)` pairs
of the maximal runs of two or more consecutive literal spaces, left to
right. -/
def spaceRuns (l : List Char) : List (Nat × Nat) := spaceRunsAux l 0 0

/-- A whitespace-checker issue record. -/
structure WIssue where
  type : String
  paragraph_index : Nat
  sectionLabel : Option String
  text : String
  detail : String
deriving DecidableEq, Repr

/-- The `double_space` issues of one paragraph text. -/
def doubleSpaceIssues (idx : Nat) (sect : Option String) (text : String) :
    List WIssue :=
  (spaceRuns text.data).map fun se =>
    let start := max 0 (se.1 - 20)
    let stop := min text.data.length (se.1 + se.2 + 20)
    let context : String := ⟨pySlice text.data start stop⟩
    { type := "double_space"
      paragraph_index := idx
      sectionLabel := sect
      text := truncate80 text
      detail := "Multiple spaces at position " ++ toString se.1 ++
        ": \"…" ++ context ++ "…\"" }

/-- The `trailing_whitespace` issues of one paragraph text. -/
def trailingIssues (idx : Nat) (sect : Option String) (text : String) :
    List WIssue :=
  if text ≠ pyRStrip text then
    [{ type := "trailing_whitespace"
       paragraph_index := idx
       sectionLabel := sect
       text := truncate80 (pyRStrip text)
       detail := toString (text.data.length - (pyRStrip text).data.length) ++
         " trailing whitespace character(s)" }]
  else []

/-- The `leading_whitespace` issues of one paragraph (list items exempt). -/
def leadingIssues (idx : Nat) (sect : Option String) (p : Paragraph) :
    List WIssue :=
  if p.text ≠ pyLStrip p.text ∧ ¬p.numPr then
    [{ type := "leading_whitespace"
       paragraph_index := idx
       sectionLabel := sect
       text := truncate80 (pyStrip p.text)
       detail := toString (p.text.data.length - (pyLStrip p.text).data.length) ++
         " leading whitespace character(s)" }]
  else []

/-- The paragraph loop of `check_whitespace`.  `full` is the whole document
(used by the backward section lookup), `rest` the paragraphs still to scan,
`idx` the index of the head of `rest`, `prevBlank` the carried
blank-tracking flag. -/
def cwLoop (full : List Paragraph) :
    List Paragraph → Nat → Bool → List WIssue
  | [], _, _ => []
  | p :: rest, idx, prevBlank =>
      if (_detect_heading_level p).isSome then
        cwLoop full rest (idx + 1) false
      else
        let sect := _find_parent_heading full idx
        let isBlank := pyStrip p.text = ""
        let cb : List WIssue :=
          if isBlank ∧ prevBlank then
            [{ type := "consecutive_blank_paragraphs"
               paragraph_index := idx
               sectionLabel := sect
               text := ""
               detail := "Multiple consecutive blank paragraphs" }]
          else []
        if isBlank then cb ++ cwLoop full rest (idx + 1) true
        else
          cb ++ doubleSpaceIssues idx sect p.text ++
            trailingIssues idx sect p.text ++ leadingIssues idx sect p ++
            cwLoop full rest (idx + 1) false

/-- The issue list of `check_whitespace` on an existing file. -/
def wsIssues (ps : List Paragraph) : List WIssue := cwLoop ps ps 0 false

/-- Result record of `check_whitespace`. -/
structure WhitespaceResult where
  filepath : String
  issue_count : Nat
  issues : List WIssue
deriving DecidableEq, Repr

/-- Embedding of `check_whitespace`.  `fileExists` abstracts
`os.path.isfile(filepath)`; `ps` is the paragraph sequence of the opened
document. -/
def check_whitespace (fileExists : Bool) (filepath : String)
    (ps : List Paragraph) : Except String WhitespaceResult :=
  if ¬fileExists then .error ("File not found: " ++ filepath)
  else .ok { filepath := filepath
             issue_count := (wsIssues ps).length
             issues := wsIssues ps }

/-! ## Enumeration checker (`check_enumerations`, checks.py) -/

/-- Result of `_detect_text_list_pattern`: marker style and lowercased
marker. -/
structure ListPattern where
  style : String
  marker : String
deriving DecidableEq, Repr

/-- ASCII lowercase for `str.lower()` on the matched marker letters. -/
def asciiLowerStr (l : List Char) : List Char :=
  l.map fun c => if 'A' ≤ c && c ≤ 'Z' then Char.ofNat (c.toNat + 32) else c

/-- Match `^\(([a-z]{1,4})\)\s` (IGNORECASE): an opening parenthesis, one to
four ASCII letters, a closing parenthesis, one whitespace character. -/
def matchBothParens (l : List Char) : Option (List Char) :=
  match l with
  | '(' :: rest =>
      let letters := rest.takeWhile Char.isAlpha
      if 1 ≤ letters.length ∧ letters.length ≤ 4 then
        match rest.drop letters.length with
        | ')' :: c :: _ => if pyIsSpace c then some letters else none
        | _ => none
      else none
  | _ => none

/-- Match `^([a-z]{1,4})\)\s` (IGNORECASE). -/
def matchRightParen (l : List Char) : Option (List Char) :=
  let letters := l.takeWhile Char.isAlpha
  if 1 ≤ letters.length ∧ letters.length ≤ 4 then
    match l.drop letters.length with
    | ')' :: c :: _ => if pyIsSpace c then some letters else none
    | _ => none
  else none

/-- Embedding of `_detect_text_list_pattern`: the parenthesized form is
tried first, then the right-paren form. -/
def _detect_text_list_pattern (text : String) : Option ListPattern :=
  match matchBothParens text.data with
  | some letters => some ⟨"(x)", ⟨asciiLowerStr letters⟩⟩
  | none =>
      match matchRightParen text.data with
      | some letters => some ⟨"x)", ⟨asciiLowerStr letters⟩⟩
      | none => none

/-- Embedding of `_get_terminator`: the last non-space character of the
text as a one-character string, or `""` for blank text. -/
def _get_terminator (text : String) : String :=
  match (rstripL text.data).getLast? with
  | some c => ⟨[c]⟩
  | none => ""

/-- An enumeration-run item (the dict built by `check_enumerations`). -/
structure EnumItem where
  paragraph_index : Nat
  sectionLabel : Option String
  text : String
  style : String
  marker : String
deriving DecidableEq, Repr

/-- A problem description returned by `_check_list_delimiters`. -/
structure DelimProblem where
  check : String
  detail : String
  terminators : List String
deriving DecidableEq, Repr

/-- Embedding of `_check_list_delimiters`: runs of fewer than two items pass;
otherwise collect the distinct terminators of the non-last items that lie in
`{",", ";", "."}` and flag the run when more than one remains. -/
def _check_list_delimiters (items : List EnumItem) : List DelimProblem :=
  if items.length < 2 then []
  else
    let terminators := items.map fun it => _get_terminator it.text
    let nonLast := terminators.dropLast
    let relevant := (nonLast.filter fun t => t ∈ [",", ";", "."]).dedup
    if relevant.length > 1 then
      [{ check := "terminator_inconsistency"
         detail := "Inconsistent terminators among enumeration items: " ++
           String.intercalate "/" terminators
         terminators := terminators }]
    else []

/-- An enumeration-checker issue record. -/
structure EIssue where
  type : String
  paragraph_index : Nat
  sectionLabel : Option String
  text : String
  detail : String
  terminators : List String
deriving DecidableEq, Repr

/-- The `flush()` closure of `check_enumerations`: turn each problem of the
current run into an issue attributed to the run's first item. -/
def flushIssues (run : List EnumItem) : List EIssue :=
  match run with
  | [] => []
  | first :: _ =>
      (_check_list_delimiters run).map fun prob =>
        { type := prob.check
          paragraph_index := first.paragraph_index
          sectionLabel := first.sectionLabel
          text := truncate80 first.text
          detail := prob.detail
          terminators := prob.terminators }

/-- The paragraph loop of `check_enumerations`: headings flush the run and
set the section label; blank and non-list paragraphs flush the run; a style
change flushes and restarts; otherwise the item joins the current run. -/
def ceLoop : List Paragraph → Nat → List EnumItem → Option String →
    List EIssue
  | [], _, run, _ => flushIssues run
  | p :: rest, idx, run, sect =>
      if (_detect_heading_level p).isSome then
        flushIssues run ++ ceLoop rest (idx + 1) [] (some (pyStrip p.text))
      else if pyStrip p.text = "" then
        flushIssues run ++ ceLoop rest (idx + 1) [] sect
      else
        match _detect_text_list_pattern p.text with
        | none => flushIssues run ++ ceLoop rest (idx + 1) [] sect
        | some info =>
            let item : EnumItem :=
              { paragraph_index := idx
                sectionLabel := sect
                text := p.text
                style := info.style
                marker := info.marker }
            match run.getLast? with
            | some lastIt =>
                if lastIt.style ≠ info.style then
                  flushIssues run ++ ceLoop rest (idx + 1) [item] sect
                else ceLoop rest (idx + 1) (run ++ [item]) sect
            | none => ceLoop rest (idx + 1) [item] sect

/-- The issue list of `check_enumerations` on an existing file. -/
def ceIssues (ps : List Paragraph) : List EIssue := ceLoop ps 0 [] none

/-- Result record of `check_enumerations`. -/
structure EnumResult where
  filepath : String
  issue_count : Nat
  issues : List EIssue
deriving DecidableEq, Repr

/-- Embedding of `check_enumerations`. -/
def check_enumerations (fileExists : Bool) (filepath : String)
    (ps : List Paragraph) : Except String EnumResult :=
  if ¬fileExists then .error ("File not found: " ++ filepath)
  else .ok { filepath := filepath
             issue_count := (ceIssues ps).length
             issues := ceIssues ps }

/-! ## Reference extraction (checks.py)

Each Python regular expression is embedded as a matcher over character
lists.  A matcher receives the wordness of the character preceding the
match position (for the leading `\b`) and the remaining input, and returns
the captured group together with the rest of the input after the match. -/

/-- Case-sensitive literal match; returns the rest of the input. -/
def matchLit : List Char → List Char → Option (List Char)
  | [], l => some l
  | p :: ps, c :: cs => if c = p then matchLit ps cs else none
  | _ :: _, [] => none

/-- Case-insensitive (`re.IGNORECASE`) literal match. -/
def matchLitCI : List Char → List Char → Option (List Char)
  | [], l => some l
  | p :: ps, c :: cs => if czLower c = czLower p then matchLitCI ps cs else none
  | _ :: _, [] => none

/-- `\b` after a word character: the next character is absent or not a word
character. -/
def noWordAhead : List Char → Bool
  | [] => true
  | c :: _ => !pyIsWordChar c

/-- Parse the maximal sequence of `\.\d+` groups (each returned without its
dot), together with the rest of the input.  The recursion is bounded by a
fuel parameter (each group consumes at least the dot), keeping the function
kernel-reducible. -/
def dotGroupsF : Nat → List Char → List (List Char) × List Char
  | 0, l => ([], l)
  | fuel + 1, l =>
      match l with
      | '.' :: cs =>
          let d := cs.takeWhile Char.isDigit
          if d.isEmpty then ([], '.' :: cs)
          else
            let (gs, r) := dotGroupsF fuel (cs.drop d.length)
            (d :: gs, r)
      | l => ([], l)

def dotGroups (l : List Char) : List (List Char) × List Char :=
  dotGroupsF l.length l

/-- The capture `(\d+(?:\.\d+)*)` followed by `\b`, with the regex engine's
backtracking: the greedy capture ends in a digit, so when a word character
follows, the engine drops the last `\.\d+` group (after which a dot follows,
satisfying the boundary); with no group to drop the match fails (shrinking
`\d+` can never create a boundary between two digits). -/
def matchDottedNum (l : List Char) : Option (List Char × List Char) :=
  let d0 := l.takeWhile Char.isDigit
  if d0.isEmpty then none
  else
    let (gs, r) := dotGroups (l.drop d0.length)
    if noWordAhead r then
      some (d0 ++ (gs.map fun g => '.' :: g).flatten, r)
    else
      match gs.getLast? with
      | some lastG =>
          some (d0 ++ (gs.dropLast.map fun g => '.' :: g).flatten, '.' :: lastG ++ r)
      | none => none

/-- `_RE_CL_ABBR = r'\bčl\.\s*(\d+(?:\.\d+)*)\b'` (case-sensitive). -/
def matchClAbbr (prevW : Bool) (l : List Char) :
    Option (List Char × List Char) :=
  if prevW then none
  else
    match matchLit "čl.".data l with
    | some r1 => matchDottedNum (r1.dropWhile pyIsSpace)
    | none => none

/-- `_RE_CLANEK = r'\bčlánk\w{0,3}\s+(\d+(?:\.\d+)*)\b'` (IGNORECASE).
After the root `článk`, the greedy `\w{0,3}` must consume the whole word-
character run (a shorter prefix is followed by a word character, never by
the required whitespace), so the run length must be at most 3. -/
def matchClanek (prevW : Bool) (l : List Char) :
    Option (List Char × List Char) :=
  if prevW then none
  else
    match matchLitCI "článk".data l with
    | some r1 =>
        let wr := r1.takeWhile pyIsWordChar
        if wr.length ≤ 3 then
          let r2 := r1.drop wr.length
          let ws := r2.takeWhile pyIsSpace
          if ws.isEmpty then none
          else matchDottedNum (r2.drop ws.length)
        else none
    | none => none

/-- `_RE_PRILOHA = r'\bpřílo\w{1,4}\s+č\.\s*(\d+)\b'` (IGNORECASE). -/
def matchPriloha (prevW : Bool) (l : List Char) :
    Option (List Char × List Char) :=
  if prevW then none
  else
    match matchLitCI "přílo".data l with
    | some r1 =>
        let wr := r1.takeWhile pyIsWordChar
        if 1 ≤ wr.length ∧ wr.length ≤ 4 then
          let r2 := r1.drop wr.length
          let ws := r2.takeWhile pyIsSpace
          if ws.isEmpty then none
          else
            match matchLitCI "č.".data (r2.drop ws.length) with
            | some r3 =>
                let r4 := r3.dropWhile pyIsSpace
                let d := r4.takeWhile Char.isDigit
                if d.isEmpty then none
                else
                  let r5 := r4.drop d.length
                  if noWordAhead r5 then some (d, r5) else none
            | none => none
        else none
    | none => none

/-- `_RE_PARA_LAW = r'§\s*(\d+\w*)\b'`: the `\w*` is maximal, so the
trailing `\b` always holds. -/
def matchParaLaw (_prevW : Bool) (l : List Char) :
    Option (List Char × List Char) :=
  match l with
  | '§' :: r1 =>
      let r2 := r1.dropWhile pyIsSpace
      let d := r2.takeWhile Char.isDigit
      if d.isEmpty then none
      else
        let r3 := r2.drop d.length
        let w := r3.takeWhile pyIsWordChar
        some (d ++ w, r3.drop (w.length))
  | _ => none

/-- `re.finditer`: scan left to right, at each position try the matcher;
on success emit `(start, capture, group0)` and resume after the match.
All the embedded patterns consume at least one character; the recursion is
bounded by a fuel parameter, keeping the function kernel-reducible. -/
def reScanF (m : Bool → List Char → Option (List Char × List Char)) :
    Nat → List Char → Nat → Bool → List (Nat × List Char × List Char)
  | 0, _, _, _ => []
  | fuel + 1, l, pos, prevW =>
      match l with
      | [] => []
      | c :: cs =>
          match m prevW (c :: cs) with
          | some (cap, rest) =>
              if rest.length < cs.length + 1 then
                let len := cs.length + 1 - rest.length
                let raw := (c :: cs).take len
                (pos, cap, raw) ::
                  reScanF m fuel rest (pos + len)
                    (pyIsWordChar (raw.getLastD ' '))
              else reScanF m fuel cs (pos + 1) (pyIsWordChar c)
          | none => reScanF m fuel cs (pos + 1) (pyIsWordChar c)

def reScan (m : Bool → List Char → Option (List Char × List Char))
    (l : List Char) (pos : Nat) (prevW : Bool) :
    List (Nat × List Char × List Char) :=
  reScanF m l.length l pos prevW

/-- A free-text reference record. -/
structure Ref where
  text : String
  raw : String
  type : String
  target : String
  sectionLabel : Option String
  paragraph_index : Nat
deriving DecidableEq, Repr

/-- The `_add` closure of `_extract_text_references`. -/
def mkRef (refType normalized : String) (cap raw : List Char)
    (sect : Option String) (idx : Nat) : Ref :=
  { text := normalized
    raw := pyStrip ⟨raw⟩
    type := refType
    target := ⟨cap⟩
    sectionLabel := sect
    paragraph_index := idx }

/-- The four pattern passes over one paragraph text, in source order. -/
def paraTextRefs (text : String) (sect : Option String) (idx : Nat) :
    List Ref :=
  ((reScan matchClAbbr text.data 0 false).map fun scr =>
      mkRef "článek" ("článek " ++ ⟨scr.2.1⟩) scr.2.1 scr.2.2 sect idx) ++
  ((reScan matchClanek text.data 0 false).map fun scr =>
      mkRef "článek" ("článek " ++ ⟨scr.2.1⟩) scr.2.1 scr.2.2 sect idx) ++
  ((reScan matchPriloha text.data 0 false).map fun scr =>
      mkRef "příloha" ("příloha č. " ++ ⟨scr.2.1⟩) scr.2.1 scr.2.2 sect idx) ++
  ((reScan matchParaLaw text.data 0 false).map fun scr =>
      mkRef "§" ("§ " ++ ⟨scr.2.1⟩) scr.2.1 scr.2.2 sect idx)

/-- The paragraph loop of `_extract_text_references`: headings update the
section label and are skipped; blank paragraphs are skipped. -/
def etrLoop : List Paragraph → Nat → Option String → List Ref
  | [], _, _ => []
  | p :: rest, idx, sect =>
      if (_detect_heading_level p).isSome then
        etrLoop rest (idx + 1) (some (pyStrip p.text))
      else if pyStrip p.text = "" then etrLoop rest (idx + 1) sect
      else paraTextRefs p.text sect idx ++ etrLoop rest (idx + 1) sect

/-- Embedding of `_extract_text_references`. -/
def _extract_text_references (ps : List Paragraph) : List Ref :=
  etrLoop ps 0 none

/-! ## Reference validation (checks.py) -/

/-- `_RE_H_CLANEK = r'^[Čč]lánek\s+(\d+)\b'` applied with `re.match`:
returns the captured article number. -/
def hClanekNumL : List Char → Option String
  | c :: rest =>
      if c = 'Č' ∨ c = 'č' then
        match matchLit "lánek".data rest with
        | some r1 =>
            let ws := r1.takeWhile pyIsSpace
            if ws.isEmpty then none
            else
              let r2 := r1.drop ws.length
              let d := r2.takeWhile Char.isDigit
              if d.isEmpty then none
              else if noWordAhead (r2.drop d.length) then some ⟨d⟩ else none
        | none => none
      else none
  | [] => none

def hClanekNum (s : String) : Option String := hClanekNumL s.data

/-- `_RE_H_PRILOHA = r'^[Pp]říloha\s+č\.\s*(\d+)\b'` applied with
`re.match`. -/
def hPrilohaNumL : List Char → Option String
  | c :: rest =>
      if c = 'P' ∨ c = 'p' then
        match matchLit "říloha".data rest with
        | some r1 =>
            let ws := r1.takeWhile pyIsSpace
            if ws.isEmpty then none
            else
              match matchLit "č.".data (r1.drop ws.length) with
              | some r2 =>
                  let r3 := r2.dropWhile pyIsSpace
                  let d := r3.takeWhile Char.isDigit
                  if d.isEmpty then none
                  else if noWordAhead (r3.drop d.length) then some ⟨d⟩
                  else none
              | none => none
        | none => none
      else none
  | [] => none

def hPrilohaNum (s : String) : Option String := hPrilohaNumL s.data

/-- The heading records `{level, text}` built by
`extract_and_validate_references`. -/
structure HeadingLT where
  level : Option Nat
  text : String
deriving DecidableEq, Repr

/-- The article-number target set: captures of `_RE_H_CLANEK` over the
heading texts. -/
def articleNums (headings : List HeadingLT) : List String :=
  headings.filterMap fun h => hClanekNum h.text

/-- The annex-number target set: captures of `_RE_H_PRILOHA` over the
heading texts; a heading already matched as an article is skipped
(`continue`). -/
def annexNums (headings : List HeadingLT) : List String :=
  headings.filterMap fun h =>
    if (hClanekNum h.text).isSome then none else hPrilohaNum h.text

/-- Python `ref["target"].split(".")[0]`. -/
def firstDotSegment (s : String) : String :=
  ⟨s.data.takeWhile fun c => c ≠ '.'⟩

/-- One iteration of the `for ref in refs` loop of `_validate_references`:
article refs are valid when the first dot-segment of the target is an
article number; annex refs when the target is an annex number; every other
kind (`§`) is always valid. -/
def validStep (arts anns : List String) (vi : List Ref × List Ref)
    (ref : Ref) : List Ref × List Ref :=
  if ref.type = "článek" then
    if firstDotSegment ref.target ∈ arts then (vi.1 ++ [ref], vi.2)
    else (vi.1, vi.2 ++ [ref])
  else if ref.type = "příloha" then
    if ref.target ∈ anns then (vi.1 ++ [ref], vi.2)
    else (vi.1, vi.2 ++ [ref])
  else (vi.1 ++ [ref], vi.2)

/-- Embedding of `_validate_references`: split the refs into
`(valid, invalid)` against the heading-derived target sets. -/
def _validate_references (refs : List Ref) (headings : List HeadingLT) :
    List Ref × List Ref :=
  refs.foldl (validStep (articleNums headings) (annexNums headings)) ([], [])

/-! ## Field codes, bookmarks and `extract_and_validate_references` -/

/-- A `REF`/`PAGEREF` field-code occurrence. -/
structure FieldCode where
  instr : String
  display_text : String
  paragraph_index : Nat
deriving DecidableEq, Repr

/-- ASCII model of Python `str.upper()`. -/
def pyUpperAscii (s : String) : String :=
  ⟨s.data.map fun c =>
    if 'a' ≤ c && c ≤ 'z' then Char.ofNat (c.toNat - 32) else c⟩

/-- `instr.upper().lstrip().startswith(("REF ", "PAGEREF "))`. -/
def isRefInstr (instr : String) : Bool :=
  let u := (pyLStrip (pyUpperAscii instr)).data
  "REF ".data.isPrefixOf u || "PAGEREF ".data.isPrefixOf u

/-- The field-code state of `_extract_field_codes`. -/
inductive FCState where
  | idle | instr | display
deriving DecidableEq, Repr

/-- The run-children scan of `_extract_field_codes` for one paragraph:
`begin` resets the buffers and starts instruction accumulation, `separate`
switches to display accumulation, `end` emits the field code when the
instruction is a `REF`/`PAGEREF`. -/
def fcPara (pIdx : Nat) : List RunChild → FCState → List String →
    List String → List FieldCode
  | [], _, _, _ => []
  | ch :: rest, st, ibuf, dbuf =>
      match ch with
      | .fldCharBegin => fcPara pIdx rest .instr [] []
      | .fldCharSeparate => fcPara pIdx rest .display ibuf dbuf
      | .fldCharEnd =>
          let instr := pyStrip (String.join ibuf)
          (if isRefInstr instr then
            [{ instr := instr
               display_text := pyStrip (String.join dbuf)
               paragraph_index := pIdx }]
          else []) ++ fcPara pIdx rest .idle ibuf dbuf
      | .instrText s =>
          fcPara pIdx rest st (if st = .instr then ibuf ++ [s] else ibuf) dbuf
      | .tText s =>
          fcPara pIdx rest st ibuf (if st = .display then dbuf ++ [s] else dbuf)
      | _ => fcPara pIdx rest st ibuf dbuf

/-- Embedding of `_extract_field_codes` over the whole document. -/
def _extract_field_codes (ps : List Paragraph) : List FieldCode :=
  (ps.enum.map fun ip => fcPara ip.1 ip.2.runChildren .idle [] []).flatten

/-- Embedding of `_get_bookmarks`.  A missing or empty `w:name` attribute is
falsy in the Python `if name:` check and is dropped. -/
def _get_bookmarks (ps : List Paragraph) : List String :=
  (ps.map fun p => p.bookmarkNames.filter fun n => n ≠ "").flatten

/-- An element of the heterogeneous `all_refs` list: a text reference, or a
field-code dict overridden with `type = "field_code"`. -/
inductive AnyRef where
  | textRef (r : Ref) : AnyRef
  | fieldRef (instr display_text : String) (paragraph_index : Nat)
      (type : String) : AnyRef
deriving DecidableEq, Repr

/-- Result record of `extract_and_validate_references`. -/
structure RefsResult where
  filepath : String
  all_refs : List AnyRef
  valid : List Ref
  invalid : List Ref
  field_code_refs : List FieldCode
  field_code_violations : List Ref
  bookmarks : List String
deriving DecidableEq, Repr

/-- Embedding of `extract_and_validate_references`. -/
def extract_and_validate_references (fileExists : Bool) (filepath : String)
    (ps : List Paragraph) : Except String RefsResult :=
  if ¬fileExists then .error ("File not found: " ++ filepath)
  else
    let headings : List HeadingLT := ps.filterMap fun p =>
      match _detect_heading_level p with
      | some _ => some ⟨_detect_heading_level p, pyStrip p.text⟩
      | none => none
    let field_code_refs := _extract_field_codes ps
    let text_refs := _extract_text_references ps
    let bookmarks := _get_bookmarks ps
    let vi := _validate_references text_refs headings
    .ok { filepath := filepath
          all_refs := text_refs.map .textRef ++ field_code_refs.map fun r =>
            .fieldRef r.instr r.display_text r.paragraph_index "field_code"
          valid := vi.1
          invalid := vi.2
          field_code_refs := field_code_refs
          field_code_violations := text_refs.filter fun r =>
            r.type = "článek" ∨ r.type = "příloha"
          bookmarks := bookmarks }

/-! ## Public functions of docx_parser.py -/

/-- Result record of `load_document_structure`. -/
structure StructureResult where
  filepath : String
  paragraph_count : Nat
  heading_count : Nat
  headings : List Heading
  heading_tree : List HNode

/-- The flat heading list of a paragraph sequence. -/
def flatHeadings (ps : List Paragraph) : List Heading :=
  ps.enum.filterMap fun ip =>
    match _detect_heading_level ip.2 with
    | some l => some ⟨l, pyStrip ip.2.text, ip.1⟩
    | none => none

/-- Embedding of `load_document_structure`. -/
def load_document_structure (fileExists : Bool) (filepath : String)
    (ps : List Paragraph) : Except String StructureResult :=
  if ¬fileExists then .error ("File not found: " ++ filepath)
  else
    .ok { filepath := filepath
          paragraph_count := ps.length
          heading_count := (flatHeadings ps).length
          headings := flatHeadings ps
          heading_tree := _build_heading_tree (flatHeadings ps) }

/-- Embedding of `_section_paragraphs`: the paragraphs after the heading up
to (exclusive) the next heading of the same or a higher level. -/
def _section_paragraphs (ps : List Paragraph) (hIdx hLevel : Nat) :
    List Paragraph :=
  (ps.drop (hIdx + 1)).takeWhile fun p =>
    match _detect_heading_level p with
    | some lvl => decide (hLevel < lvl)
    | none => true

/-- Result record of `get_section_content`. -/
structure SectionContentResult where
  heading : String
  level : Nat
  content : String
  paragraph_count : Nat
  subsections : List String
deriving DecidableEq, Repr

/-- Embedding of `get_section_content`. -/
def get_section_content (fileExists : Bool) (filepath : String)
    (ps : List Paragraph) (heading_text : String) :
    Except String SectionContentResult :=
  if ¬fileExists then .error ("File not found: " ++ filepath)
  else
    let found := ps.enum.filterMap fun ip =>
      match _detect_heading_level ip.2 with
      | some l =>
          if pyStrip ip.2.text = heading_text then some (ip.1, l) else none
      | none => none
    match found.head? with
    | none => .error ("Heading not found: " ++ heading_text)
    | some (idx, lvl) =>
        let pars := _section_paragraphs ps idx lvl
        .ok { heading := heading_text
              level := lvl
              content := String.intercalate "\n" (pars.map Paragraph.text)
              paragraph_count := pars.length
              subsections := pars.filterMap fun p =>
                if (_detect_heading_level p).isSome then some (pyStrip p.text)
                else none }

/-- One entry of `get_all_sections_summary`. -/
structure SectionSummary where
  heading : String
  level : Nat
  preview : String
  content_hash : String
  paragraph_count : Nat
deriving DecidableEq, Repr

/-- Result record of `get_all_sections_summary`. -/
structure SummaryResult where
  filepath : String
  sections : List SectionSummary
deriving DecidableEq, Repr

/-- Embedding of `get_all_sections_summary`.  The MD5 hex digest is not
re-implemented; the function is parameterised by the digest `md5hex`, which
is applied to the newline-joined section content exactly as the source
does. -/
def get_all_sections_summary (md5hex : String → String) (fileExists : Bool)
    (filepath : String) (ps : List Paragraph) :
    Except String SummaryResult :=
  if ¬fileExists then .error ("File not found: " ++ filepath)
  else
    let headings := ps.enum.filterMap fun ip =>
      match _detect_heading_level ip.2 with
      | some l => some (ip.1, l, pyStrip ip.2.text)
      | none => none
    .ok { filepath := filepath
          sections := headings.map fun hd =>
            let pars := _section_paragraphs ps hd.1 hd.2.1
            let content := String.intercalate "\n" (pars.map Paragraph.text)
            { heading := hd.2.2
              level := hd.2.1
              preview := ⟨content.data.take 200⟩ ++
                (if content.data.length > 200 then "…" else "")
              content_hash := md5hex content
              paragraph_count := pars.length } }

/-! ## Spec-side definitions used by the refinement claims -/

/-- The heading classifier as the specification words it: `"Title"` gives
level 0; otherwise a style name matching the pattern `Heading <digits>`
with exactly two whitespace-separated tokens — read strictly, the first
token is the word `Heading` itself — gives the digits as the level;
otherwise an explicit outline-level value `v` gives `v + 1`; otherwise the
paragraph is not a heading. -/
def specHeadingLevel (p : Paragraph) : Option Nat :=
  if p.styleName = "Title" then some 0
  else
    match pySplitWS p.styleName with
    | [t, d] =>
        if t = "Heading" ∧ pyIsDigitStr d then some (parseNat d)
        else _detect_heading_level.outlineFallback p
    | _ => _detect_heading_level.outlineFallback p

/-- The claim's precedence with the pattern condition amended to what the
source tests: the style name starts with the string `"Heading"` (not
necessarily as a whole token), splits into exactly two whitespace-separated
tokens, and the second token is all digits. -/
def amendedHeadingLevel (p : Paragraph) : Option Nat :=
  if p.styleName = "Title" then some 0
  else if "Heading".data.isPrefixOf p.styleName.data then
    match pySplitWS p.styleName with
    | [_, d] =>
        if pyIsDigitStr d then some (parseNat d)
        else _detect_heading_level.outlineFallback p
    | _ => _detect_heading_level.outlineFallback p
  else _detect_heading_level.outlineFallback p

/-- The non-last terminators of an enumeration run that lie in the
punctuation set `{",", ";", "."}`. -/
def relevantNonLast (items : List EnumItem) : List String :=
  ((items.map fun it => _get_terminator it.text).dropLast).filter
    fun t => t ∈ [",", ";", "."]

/-- More than one distinct terminator drawn from `{",", ";", "."}` occurs
among the non-last items. -/
def mixedTerminators (items : List EnumItem) : Prop :=
  ∃ t1 ∈ relevantNonLast items, ∃ t2 ∈ relevantNonLast items, t1 ≠ t2

/-! ## Helper lemmas -/

theorem one_lt_dedup_length_iff {α : Type} [DecidableEq α] (l : List α) :
    1 < l.dedup.length ↔ ∃ a ∈ l, ∃ b ∈ l, a ≠ b := by
  constructor
  · intro h
    match hd : l.dedup with
    | [] => rw [hd] at h; simp at h
    | [x] => rw [hd] at h; simp at h
    | x :: y :: rest =>
        have hx : x ∈ l := List.mem_dedup.mp (by rw [hd]; simp)
        have hy : y ∈ l := List.mem_dedup.mp (by rw [hd]; simp)
        have hnd := l.nodup_dedup
        rw [hd] at hnd
        refine ⟨x, hx, y, hy, fun he => ?_⟩
        subst he
        simp [List.nodup_cons] at hnd
  · rintro ⟨a, ha, b, hb, hne⟩
    have ha' : a ∈ l.dedup := List.mem_dedup.mpr ha
    have hb' : b ∈ l.dedup := List.mem_dedup.mpr hb
    match hd : l.dedup with
    | [] => rw [hd] at ha'; simp at ha'
    | [x] =>
        rw [hd] at ha' hb'
        simp at ha' hb'
        exact absurd (ha'.trans hb'.symm) hne
    | x :: y :: rest => simp

/-! ## Claim theorems -/

/-- C9: with a non-existing file path, every public entry point
(`load_document_structure`, `get_section_content`,
`get_all_sections_summary`, `check_whitespace`, `check_enumerations`,
`extract_and_validate_references`) returns the structured error value
`File not found: <path>` with the path interpolated, and nothing else. -/
theorem file_not_found_convention (fp : String) (ps : List Paragraph)
    (heading_text : String) (md5hex : String → String) :
    load_document_structure false fp ps = .error ("File not found: " ++ fp)
    ∧ get_section_content false fp ps heading_text =
        .error ("File not found: " ++ fp)
    ∧ get_all_sections_summary md5hex false fp ps =
        .error ("File not found: " ++ fp)
    ∧ check_whitespace false fp ps = .error ("File not found: " ++ fp)
    ∧ check_enumerations false fp ps = .error ("File not found: " ++ fp)
    ∧ extract_and_validate_references false fp ps =
        .error ("File not found: " ++ fp) :=
  ⟨rfl, rfl, rfl, rfl, rfl, rfl⟩

/-- C6: the claim that a detected heading level always lies in 0–9 is
contradicted by the code (and by the function's own docstring "Return
heading level (0-9) or None"): a custom style named `Heading 12` yields
level 12, and an outline-level attribute of 9 — the OOXML body-text level —
yields level 10. -/
theorem heading_level_not_bounded_by_nine :
    (¬ ∀ (p : Paragraph) (n : Nat), _detect_heading_level p = some n → n ≤ 9)
    ∧ _detect_heading_level
        { text := "Kapitola", styleName := "Heading 12" } = some 12
    ∧ _detect_heading_level
        { text := "Text", styleName := "Normal",
          outlineLvlVal := some "9" } = some 10 := by
  refine ⟨fun h => ?_, rfl, rfl⟩
  have := h { text := "Kapitola", styleName := "Heading 12" } 12 rfl
  omega

/-- C5 counterexample: the classifier does not follow the claimed pattern
`Heading <digits>` strictly — a style named `Headingy 5` starts with the
string `Heading` and splits into two tokens with a digit second token, so
the code classifies it as a level-5 heading, while under the claim's
precedence it is no heading at all. -/
theorem heading_precedence_counterexample :
    _detect_heading_level { text := "x", styleName := "Headingy 5" } = some 5
    ∧ specHeadingLevel { text := "x", styleName := "Headingy 5" } = none := by
  constructor <;> rfl

/-- C5 amended: the classifier follows the claimed precedence with the
pattern condition amended to the source's test — the style name starts
with the string `"Heading"`, splits into exactly two whitespace-separated
tokens, and the second token is all digits (the first token need not be
exactly `Heading`).  `Title` still takes precedence, the outline-level
fallback and the not-a-heading default are as claimed, and the function is
pure (it is a function of the paragraph record alone). -/
theorem take7_heading_iff (s : List Char) :
    s.take 7 = "Heading".data ↔ "Heading".data.isPrefixOf s = true := by
  rw [List.isPrefixOf_iff_prefix, List.prefix_iff_eq_take]
  have h7 : ("Heading".data.length) = 7 := rfl
  rw [h7]
  exact eq_comm

theorem heading_precedence_amended (p : Paragraph) :
    _detect_heading_level p = amendedHeadingLevel p := by
  unfold _detect_heading_level amendedHeadingLevel
  by_cases ht : p.styleName = "Title"
  · simp [ht]
  · rw [if_neg ht, if_neg ht]
    by_cases hp : p.styleName.data.take 7 = "Heading".data
    · rw [if_pos hp, if_pos ((take7_heading_iff _).mp hp)]
    · rw [if_neg hp, if_neg (fun h => hp ((take7_heading_iff _).mpr h))]

/-- The enumeration run `["a) x;", "b) y;", "c) z."]` as `check_enumerations`
accumulates it. -/
def runSemicolons : List EnumItem :=
  [{ paragraph_index := 0, sectionLabel := none, text := "a) x;",
     style := "x)", marker := "a" },
   { paragraph_index := 1, sectionLabel := none, text := "b) y;",
     style := "x)", marker := "b" },
   { paragraph_index := 2, sectionLabel := none, text := "c) z.",
     style := "x)", marker := "c" }]

/-- The enumeration run `["a) x,", "b) y;", "c) z"]`. -/
def runMixed : List EnumItem :=
  [{ paragraph_index := 0, sectionLabel := none, text := "a) x,",
     style := "x)", marker := "a" },
   { paragraph_index := 1, sectionLabel := none, text := "b) y;",
     style := "x)", marker := "b" },
   { paragraph_index := 2, sectionLabel := none, text := "c) z",
     style := "x)", marker := "c" }]

/-- C2 counterexample: on the run `["a) x,", "b) y;", "c) z"]` the code does
emit exactly one `terminator_inconsistency` issue, but its reported
terminator list is `[",", ";", "z"]` — the last item's terminator is its
last non-space character `z` (the empty string is produced only for blank
text) — not `[",", ";", ""]` as claimed. -/
theorem terminator_list_counterexample :
    (_check_list_delimiters runMixed).map DelimProblem.terminators =
      [[",", ";", "z"]]
    ∧ ([[",", ";", "z"]] : List (List String)) ≠ [[",", ";", ""]] := by
  exact ⟨rfl, by decide⟩

/-- C2 amended: a run of fewer than 2 items yields no issue; for a run of
2 or more items, exactly one `terminator_inconsistency` issue is emitted if
and only if more than one distinct terminator drawn from `{",", ";", "."}`
occurs among the non-last items, and the issue reports the full terminator
list of the run; the run `["a) x;", "b) y;", "c) z."]` yields no issue and
the run `["a) x,", "b) y;", "c) z"]` yields exactly one issue whose
terminator list is `[",", ";", "z"]` (amended from the claimed
`[",", ";", ""]`: the last item's terminator is `z`, the empty string
arising only for blank text). -/
theorem enumeration_flush_characterized :
    (∀ items : List EnumItem, items.length < 2 →
      _check_list_delimiters items = [])
    ∧ (∀ items : List EnumItem, 2 ≤ items.length →
        ((_check_list_delimiters items).length = 1 ↔ mixedTerminators items)
        ∧ (¬mixedTerminators items → _check_list_delimiters items = [])
        ∧ ∀ prob ∈ _check_list_delimiters items,
            prob.terminators = items.map fun it => _get_terminator it.text)
    ∧ _check_list_delimiters runSemicolons = []
    ∧ (_check_list_delimiters runMixed).map DelimProblem.terminators =
        [[",", ";", "z"]] := by
  have hunfold : ∀ items : List EnumItem, 2 ≤ items.length →
      _check_list_delimiters items =
        if 1 < (relevantNonLast items).dedup.length then
          [{ check := "terminator_inconsistency"
             detail := "Inconsistent terminators among enumeration items: " ++
               String.intercalate "/"
                 (items.map fun it => _get_terminator it.text)
             terminators := items.map fun it => _get_terminator it.text }]
        else [] := by
    intro items h
    simp only [_check_list_delimiters, relevantNonLast]
    rw [if_neg (by omega)]
  refine ⟨?_, ?_, ?_, ?_⟩
  · intro items h
    simp only [_check_list_delimiters]
    rw [if_pos h]
  · intro items h
    have hiff := one_lt_dedup_length_iff (relevantNonLast items)
    rw [hunfold items h]
    by_cases hm : mixedTerminators items
    · rw [if_pos (hiff.mpr hm)]
      refine ⟨by simpa using hm, fun hc => absurd hm hc, ?_⟩
      intro prob hp
      simp only [List.mem_singleton] at hp
      rw [hp]
    · rw [if_neg (fun hlt => hm (hiff.mp hlt))]
      refine ⟨by simpa using hm, fun _ => rfl, by simp⟩
  · rfl
  · rfl

/-- C2 witness: the characterization applied to the empty run and to the
mixed-terminator run. -/
theorem enumeration_flush_characterized_witness :
    _check_list_delimiters [] = []
    ∧ (((_check_list_delimiters runMixed).length = 1 ↔
          mixedTerminators runMixed)
        ∧ (¬mixedTerminators runMixed → _check_list_delimiters runMixed = [])
        ∧ ∀ prob ∈ _check_list_delimiters runMixed,
            prob.terminators = runMixed.map fun it => _get_terminator it.text) :=
  ⟨enumeration_flush_characterized.1 [] (by decide),
   enumeration_flush_characterized.2.1 runMixed (by decide)⟩

/-! ## Heading-tree lemmas (C3, C4) -/

theorem preorderF_append (f1 f2 : List HNode) :
    preorderF (f1 ++ f2) = preorderF f1 ++ preorderF f2 := by
  induction f1 with
  | nil => simp [preorderF]
  | cons n ns ih => simp [preorderF, ih]

/-- The pre-order flattening of the open stack (innermost frame first):
each frame contributes its heading followed by its finished children, with
the accumulated inner content nested after them. -/
def stackFlat : List Frame → List Heading → List Heading
  | [], acc => acc
  | (h, cs) :: rest, acc => stackFlat rest (h :: (preorderF cs ++ acc))

theorem stackFlat_append (s : List Frame) (a b : List Heading) :
    stackFlat s (a ++ b) = stackFlat s a ++ b := by
  induction s generalizing a b with
  | nil => rfl
  | cons fr rest ih =>
      obtain ⟨h, cs⟩ := fr
      simp only [stackFlat]
      rw [show h :: (preorderF cs ++ (a ++ b)) =
            (h :: (preorderF cs ++ a)) ++ b by simp]
      exact ih _ _

theorem popGEAux_flat (lvl : Nat) (stack : List Frame) :
    ∀ (roots carry : List HNode) (acc : List Heading),
      preorderF (popGEAux lvl roots stack carry).1 ++
          stackFlat (popGEAux lvl roots stack carry).2 acc =
        preorderF roots ++ stackFlat stack (preorderF carry ++ acc) := by
  induction stack with
  | nil =>
      intro roots carry acc
      simp [popGEAux, stackFlat, preorderF_append]
  | cons fr rest ih =>
      intro roots carry acc
      obtain ⟨h, cs⟩ := fr
      simp only [popGEAux]
      by_cases hl : lvl ≤ h.level
      · rw [if_pos hl, ih]
        simp only [stackFlat]
        congr 2
        show preorderF [closeFrame (h, cs ++ carry)] ++ acc =
          h :: (preorderF cs ++ (preorderF carry ++ acc))
        simp [preorderF, preorder, closeFrame, preorderF_append]
      · rw [if_neg hl]
        simp [stackFlat, preorderF_append]

theorem popGEAux_zero_stack (stack : List Frame) :
    ∀ (roots carry : List HNode),
      (popGEAux 0 roots stack carry).2 = [] := by
  induction stack with
  | nil => intro roots carry; rfl
  | cons fr rest ih =>
      intro roots carry
      obtain ⟨h, cs⟩ := fr
      simp only [popGEAux]
      rw [if_pos (Nat.zero_le _)]
      exact ih _ _

theorem buildStep_flat (st : List HNode × List Frame) (h : Heading) :
    preorderF (buildStep st h).1 ++ stackFlat (buildStep st h).2 [] =
      (preorderF st.1 ++ stackFlat st.2 []) ++ [h] := by
  simp only [buildStep, popGE, stackFlat, preorderF, List.nil_append,
    List.append_nil]
  have h1 := popGEAux_flat h.level st.2 st.1 [] [h]
  simp only [preorderF, List.nil_append] at h1
  rw [h1, show ([h] : List Heading) = [] ++ [h] from rfl, stackFlat_append]
  simp

theorem foldl_buildStep_flat (hs : List Heading) :
    ∀ st : List HNode × List Frame,
      preorderF (hs.foldl buildStep st).1 ++
          stackFlat (hs.foldl buildStep st).2 [] =
        (preorderF st.1 ++ stackFlat st.2 []) ++ hs := by
  induction hs with
  | nil => intro st; simp
  | cons h rest ih =>
      intro st
      rw [List.foldl_cons, ih, buildStep_flat]
      simp

/-- The pre-order traversal of the built heading tree reproduces the flat
heading list. -/
theorem preorderF_build (hs : List Heading) :
    preorderF (_build_heading_tree hs) = hs := by
  unfold _build_heading_tree popGE
  have h2 := popGEAux_zero_stack (hs.foldl buildStep ([], [])).2
    (hs.foldl buildStep ([], [])).1 []
  have h1 := popGEAux_flat 0 (hs.foldl buildStep ([], [])).2
    (hs.foldl buildStep ([], [])).1 [] []
  rw [h2] at h1
  simp only [stackFlat, preorderF, List.append_nil, List.nil_append] at h1
  rw [h1]
  have h3 := foldl_buildStep_flat hs ([], [])
  simpa [preorderF, stackFlat] using h3

mutual

theorem countNodes_eq_length : ∀ n : HNode,
    countNodes n = (preorder n).length
  | .mk l t i cs => by
      simp only [countNodes, preorder, List.length_cons,
        countNodesF_eq_length cs]
      omega

theorem countNodesF_eq_length : ∀ f : List HNode,
    countNodesF f = (preorderF f).length
  | [] => by simp [countNodesF, preorderF]
  | n :: ns => by
      simp only [countNodesF, preorderF, List.length_append,
        countNodes_eq_length n, countNodesF_eq_length ns]

end

/-- C3: on every document, `load_document_structure` succeeds and returns a
heading tree whose node count equals `heading_count` and whose pre-order
(depth-first, children in order) traversal reproduces the flat `headings`
list element for element. -/
theorem structure_tree_preorder (fp : String) (ps : List Paragraph) :
    ∃ r, load_document_structure true fp ps = .ok r
      ∧ countNodesF r.heading_tree = r.heading_count
      ∧ preorderF r.heading_tree = r.headings := by
  refine ⟨_, rfl, ?_, ?_⟩
  · show countNodesF (_build_heading_tree (flatHeadings ps)) =
      (flatHeadings ps).length
    rw [countNodesF_eq_length, preorderF_build]
  · exact preorderF_build _

/-! ## Parent–child level invariant of the heading tree (C4) -/

/-- Every node of the forest has children strictly deeper than itself. -/
def forestOK (f : List HNode) : Prop :=
  ∀ n ∈ allNodesF f, ∀ c ∈ n.children, n.level < c.level

theorem allNodesF_append (f1 f2 : List HNode) :
    allNodesF (f1 ++ f2) = allNodesF f1 ++ allNodesF f2 := by
  induction f1 with
  | nil => simp [allNodesF]
  | cons n ns ih => simp [allNodesF, ih]

theorem forestOK_append {f1 f2 : List HNode} :
    forestOK (f1 ++ f2) ↔ forestOK f1 ∧ forestOK f2 := by
  simp only [forestOK, allNodesF_append, List.mem_append]
  constructor
  · intro h
    exact ⟨fun n hn => h n (Or.inl hn), fun n hn => h n (Or.inr hn)⟩
  · rintro ⟨h1, h2⟩ n (hn | hn)
    exacts [h1 n hn, h2 n hn]

theorem forestOK_single {l : Nat} {t : String} {i : Nat} {cs : List HNode} :
    forestOK [.mk l t i cs] ↔ (∀ c ∈ cs, l < c.level) ∧ forestOK cs := by
  simp only [forestOK, allNodesF, allNodes, List.append_nil]
  constructor
  · intro h
    refine ⟨fun c hc => h (.mk l t i cs) (List.mem_cons_self _ _) c hc,
      fun n hn => h n (List.mem_cons_of_mem _ hn)⟩
  · rintro ⟨h1, h2⟩ n hn
    rcases List.mem_cons.mp hn with rfl | hn
    · exact h1
    · exact h2 n hn

/-- An open frame is sound when its finished children form a sound forest
and all sit strictly deeper than the frame's own heading. -/
def frameOK (fr : Frame) : Prop :=
  forestOK fr.2 ∧ ∀ c ∈ fr.2, fr.1.level < c.level

/-- Stack levels strictly decrease from the innermost frame outwards. -/
def stackLevels (stack : List Frame) : Prop :=
  List.Chain' (fun a b : Frame => b.1.level < a.1.level) stack

theorem popGEAux_inv (lvl : Nat) (stack : List Frame) :
    ∀ (roots carry : List HNode),
      forestOK roots →
      (∀ fr ∈ stack, frameOK fr) →
      stackLevels stack →
      forestOK carry →
      (∀ c ∈ carry, ∀ fr, stack.head? = some fr → fr.1.level < c.level) →
      forestOK (popGEAux lvl roots stack carry).1
      ∧ (∀ fr ∈ (popGEAux lvl roots stack carry).2, frameOK fr)
      ∧ stackLevels (popGEAux lvl roots stack carry).2
      ∧ (∀ fr, (popGEAux lvl roots stack carry).2.head? = some fr →
          fr.1.level < lvl) := by
  induction stack with
  | nil =>
      intro roots carry hroots _ _ hcarry _
      refine ⟨?_, by simp [popGEAux], by simp [popGEAux, stackLevels],
        by simp [popGEAux]⟩
      simp only [popGEAux]
      exact forestOK_append.mpr ⟨hroots, hcarry⟩
  | cons fr rest ih =>
      intro roots carry hroots hframes hchain hcarry hclvl
      obtain ⟨h, cs⟩ := fr
      have hfr : frameOK (h, cs) := hframes _ (List.mem_cons_self _ _)
      simp only [popGEAux]
      by_cases hl : lvl ≤ h.level
      · rw [if_pos hl]
        have hcsc : forestOK (cs ++ carry) :=
          forestOK_append.mpr ⟨hfr.1, hcarry⟩
        have hlev : ∀ c ∈ cs ++ carry, h.level < c.level := by
          intro c hc
          rcases List.mem_append.mp hc with hc | hc
          · exact hfr.2 c hc
          · exact hclvl c hc (h, cs) rfl
        refine ih roots [closeFrame (h, cs ++ carry)] hroots
          (fun fr hfr2 => hframes fr (List.mem_cons_of_mem _ hfr2))
          (hchain.tail) ?_ ?_
        · exact forestOK_single.mpr ⟨hlev, hcsc⟩
        · intro c hc fr2 hfr2
          rcases List.mem_singleton.mp hc with rfl
          have : rest.head? = some fr2 := hfr2
          have hrel := List.chain'_cons'.mp hchain
          have := hrel.1 fr2 this
          simpa [closeFrame] using this
      · rw [if_neg hl]
        refine ⟨hroots, ?_, ?_, ?_⟩
        · intro fr2 hfr2
          rcases List.mem_cons.mp hfr2 with rfl | hfr2
          · refine ⟨forestOK_append.mpr ⟨hfr.1, hcarry⟩, ?_⟩
            intro c hc
            rcases List.mem_append.mp hc with hc | hc
            · exact hfr.2 c hc
            · exact hclvl c hc (h, cs) rfl
          · exact hframes fr2 (List.mem_cons_of_mem _ hfr2)
        · have hrel := List.chain'_cons'.mp hchain
          exact List.chain'_cons'.mpr ⟨hrel.1, hrel.2⟩
        · intro fr2 hfr2
          simp only [List.head?_cons, Option.some.injEq] at hfr2
          rw [← hfr2]
          exact Nat.lt_of_not_le hl

/-- The state invariant carried through the heading fold. -/
def stateOK (st : List HNode × List Frame) : Prop :=
  forestOK st.1 ∧ (∀ fr ∈ st.2, frameOK fr) ∧ stackLevels st.2

theorem buildStep_inv (st : List HNode × List Frame) (h : Heading)
    (hst : stateOK st) : stateOK (buildStep st h) := by
  obtain ⟨hroots, hframes, hchain⟩ := hst
  have hinv := popGEAux_inv h.level st.2 st.1 [] hroots hframes hchain
    (by intro n hn; simp [allNodesF] at hn) (by intro c hc; simp at hc)
  refine ⟨hinv.1, ?_, ?_⟩
  · intro fr hfr
    rcases List.mem_cons.mp hfr with rfl | hfr
    · exact ⟨by intro n hn; simp [allNodesF] at hn, by simp⟩
    · exact hinv.2.1 fr hfr
  · refine List.chain'_cons'.mpr ⟨?_, hinv.2.2.1⟩
    intro fr2 hfr2
    exact hinv.2.2.2 fr2 hfr2

theorem foldl_buildStep_inv (hs : List Heading) :
    ∀ st : List HNode × List Frame, stateOK st →
      stateOK (hs.foldl buildStep st) := by
  induction hs with
  | nil => intro st hst; exact hst
  | cons h rest ih =>
      intro st hst
      rw [List.foldl_cons]
      exact ih _ (buildStep_inv st h hst)

/-- The built heading tree satisfies the strict parent–child level
invariant. -/
theorem build_forestOK (hs : List Heading) :
    forestOK (_build_heading_tree hs) := by
  unfold _build_heading_tree popGE
  have hst := foldl_buildStep_inv hs ([], [])
    ⟨by intro n hn; simp [allNodesF] at hn, by simp, by simp [stackLevels]⟩
  exact (popGEAux_inv 0 (hs.foldl buildStep ([], [])).2
    (hs.foldl buildStep ([], [])).1 [] hst.1 hst.2.1 hst.2.2
    (by intro n hn; simp [allNodesF] at hn) (by intro c hc; simp at hc)).1

theorem mapHead_sublist_preorderF : ∀ f : List HNode,
    List.Sublist (f.map HNode.head) (preorderF f)
  | [] => by simp [preorderF]
  | n :: ns => by
      obtain ⟨l, t, i, cs⟩ := n
      simp only [List.map_cons, preorderF, preorder, HNode.head,
        List.cons_append]
      exact ((mapHead_sublist_preorderF ns).trans
        (List.sublist_append_right _ _)).cons₂ _

mutual

theorem preorderF_children_sub_node : ∀ (m n : HNode), n ∈ allNodes m →
    List.Sublist (preorderF n.children) (preorder m)
  | .mk l t i cs, n => by
      intro hn
      simp only [allNodes] at hn
      rcases List.mem_cons.mp hn with rfl | hn
      · simp only [preorder, HNode.children]
        exact List.sublist_cons_self _ _
      · exact (preorderF_children_sub_forest cs n hn).trans
          (by simp only [preorder]; exact List.sublist_cons_self _ _)

theorem preorderF_children_sub_forest : ∀ (f : List HNode) (n : HNode),
    n ∈ allNodesF f → List.Sublist (preorderF n.children) (preorderF f)
  | [], n => by intro hn; simp [allNodesF] at hn
  | m :: ms, n => by
      intro hn
      simp only [allNodesF] at hn
      rcases List.mem_append.mp hn with hn | hn
      · exact (preorderF_children_sub_node m n hn).trans
          (by simp only [preorderF]; exact List.sublist_append_left _ _)
      · exact (preorderF_children_sub_forest ms n hn).trans
          (by simp only [preorderF]; exact List.sublist_append_right _ _)

end

/-- C4: in every forest produced by the heading tree builder, each node's
children are strictly deeper than the node; sibling lists (the children of
any node, and the root list) appear in input order — they are order-
preserving subsequences of the input heading list; and level gaps are
preserved: a level-3 heading immediately following a level-1 heading
becomes its direct child. -/
theorem tree_children_strictly_deeper :
    (∀ hs : List Heading, ∀ n ∈ allNodesF (_build_heading_tree hs),
      (∀ c ∈ n.children, n.level < c.level)
      ∧ List.Sublist (n.children.map HNode.head) hs)
    ∧ (∀ hs : List Heading,
        List.Sublist ((_build_heading_tree hs).map HNode.head) hs)
    ∧ _build_heading_tree [⟨1, "A", 0⟩, ⟨3, "B", 1⟩] =
        [.mk 1 "A" 0 [.mk 3 "B" 1 []]] := by
  refine ⟨?_, ?_, rfl⟩
  · intro hs n hn
    refine ⟨build_forestOK hs n hn, ?_⟩
    have h1 := mapHead_sublist_preorderF n.children
    have h2 := preorderF_children_sub_forest (_build_heading_tree hs) n hn
    have h3 := h1.trans h2
    rwa [preorderF_build] at h3
  · intro hs
    have h1 := mapHead_sublist_preorderF (_build_heading_tree hs)
    rwa [preorderF_build] at h1

/-- C4 witness: the invariant applied to the level-gap document
`[level 1, level 3]` at its root node. -/
theorem tree_children_strictly_deeper_witness :
    (∀ c ∈ (HNode.mk 1 "A" 0 [.mk 3 "B" 1 []]).children,
      (HNode.mk 1 "A" 0 [.mk 3 "B" 1 []]).level < c.level)
    ∧ List.Sublist ((HNode.mk 1 "A" 0 [.mk 3 "B" 1 []]).children.map HNode.head)
        [⟨1, "A", 0⟩, ⟨3, "B", 1⟩] := by
  have hmem : HNode.mk 1 "A" 0 [.mk 3 "B" 1 []] ∈
      allNodesF (_build_heading_tree [⟨1, "A", 0⟩, ⟨3, "B", 1⟩]) := by
    rw [show _build_heading_tree [⟨1, "A", 0⟩, ⟨3, "B", 1⟩] =
      [.mk 1 "A" 0 [.mk 3 "B" 1 []]] from rfl]
    simp [allNodesF, allNodes]
  exact tree_children_strictly_deeper.1 [⟨1, "A", 0⟩, ⟨3, "B", 1⟩] _ hmem

/-! ## Reference validation lemmas (C1) -/

/-- The validity decision of `_validate_references` for a single ref. -/
def refIsValid (arts anns : List String) (ref : Ref) : Bool :=
  if ref.type = "článek" then decide (firstDotSegment ref.target ∈ arts)
  else if ref.type = "příloha" then decide (ref.target ∈ anns)
  else true

theorem validStep_eq (arts anns : List String)
    (vi : List Ref × List Ref) (ref : Ref) :
    validStep arts anns vi ref =
      if refIsValid arts anns ref then (vi.1 ++ [ref], vi.2)
      else (vi.1, vi.2 ++ [ref]) := by
  simp only [validStep, refIsValid]
  split_ifs <;> simp_all

theorem validate_foldl (arts anns : List String) (refs : List Ref) :
    ∀ acc : List Ref × List Ref,
      refs.foldl (validStep arts anns) acc =
        (acc.1 ++ refs.filter (refIsValid arts anns),
         acc.2 ++ refs.filter fun r => !refIsValid arts anns r) := by
  induction refs with
  | nil => intro acc; simp
  | cons r rs ih =>
      intro acc
      rw [List.foldl_cons, validStep_eq]
      by_cases hv : refIsValid arts anns r
      · rw [if_pos hv, ih]
        simp [List.filter_cons, hv]
      · rw [if_neg hv, ih]
        simp [List.filter_cons, hv]

theorem validate_eq_filter (refs : List Ref) (hs : List HeadingLT) :
    _validate_references refs hs =
      (refs.filter (refIsValid (articleNums hs) (annexNums hs)),
       refs.filter fun r =>
         !refIsValid (articleNums hs) (annexNums hs) r) := by
  unfold _validate_references
  rw [validate_foldl]
  simp

theorem mem_articleNums {hs : List HeadingLT} {n : String} :
    n ∈ articleNums hs ↔ ∃ h ∈ hs, hClanekNum h.text = some n := by
  simp [articleNums, List.mem_filterMap]

theorem hPriloha_imp_hClanek_none (s : String) :
    (hPrilohaNum s).isSome → hClanekNum s = none := by
  intro h
  rw [hPrilohaNum] at h
  rw [hClanekNum]
  rcases hd : s.data with _ | ⟨c, rest⟩
  · rw [hd] at h
    simp [hPrilohaNumL] at h
  · rw [hd] at h
    simp only [hPrilohaNumL] at h
    simp only [hClanekNumL]
    by_cases hc : c = 'P' ∨ c = 'p'
    · have hn : ¬(c = 'Č' ∨ c = 'č') := by
        rcases hc with h1 | h1 <;> subst h1 <;> decide
      rw [if_neg hn]
    · rw [if_neg hc] at h
      simp at h

theorem mem_annexNums {hs : List HeadingLT} {n : String} :
    n ∈ annexNums hs ↔ ∃ h ∈ hs, hPrilohaNum h.text = some n := by
  simp only [annexNums, List.mem_filterMap]
  constructor
  · rintro ⟨h, hh, he⟩
    by_cases hc : (hClanekNum h.text).isSome
    · rw [if_pos hc] at he
      exact absurd he (by simp)
    · rw [if_neg hc] at he
      exact ⟨h, hh, he⟩
  · rintro ⟨h, hh, he⟩
    refine ⟨h, hh, ?_⟩
    have hnone := hPriloha_imp_hClanek_none h.text (by rw [he]; rfl)
    rw [if_neg (by simp [hnone])]
    exact he

/-- The article reference of the two concrete documents: extracted from
`"Dle článku 12 platí pokuta."`, normalised to `"článek 12"`. -/
def clanekRef (sect : String) : Ref :=
  { text := "článek 12", raw := "článku 12", type := "článek", target := "12",
    sectionLabel := some sect, paragraph_index := 1 }

/-- A contract whose heading is `Článek 12 …` and whose body cites
article 12. -/
def docClanek12 : List Paragraph :=
  [{ text := "Článek 12 Smluvní pokuta", styleName := "Heading 1" },
   { text := "Dle článku 12 platí pokuta.", styleName := "Normal" }]

/-- The same contract with the heading renumbered to 13. -/
def docClanek13 : List Paragraph :=
  [{ text := "Článek 13 Smluvní pokuta", styleName := "Heading 1" },
   { text := "Dle článku 12 platí pokuta.", styleName := "Normal" }]

/-- C1: an article reference is classified valid exactly when the first
dot-segment of its target is captured by `^[Čč]lánek\s+(\d+)\b` from some
heading text (so in particular when a heading starts with `Článek N` for
the referenced `N`), and an annex reference exactly when its target is
captured (exact match) by `^[Pp]říloha\s+č\.\s*(\d+)\b` from some heading;
invalid refs are exactly the complement.  Concretely, with a heading
`Článek 12 Smluvní pokuta` the reference `článek 12` is valid, and
renumbering that heading to 13 moves the same reference to `invalid`. -/
theorem reference_validity_characterized :
    (∀ (refs : List Ref) (hs : List HeadingLT) (ref : Ref), ref ∈ refs →
      (ref.type = "článek" →
        ((ref ∈ (_validate_references refs hs).1 ↔
            ∃ h ∈ hs, hClanekNum h.text = some (firstDotSegment ref.target))
         ∧ (ref ∈ (_validate_references refs hs).2 ↔
            ¬∃ h ∈ hs, hClanekNum h.text = some (firstDotSegment ref.target))))
      ∧ (ref.type = "příloha" →
        ((ref ∈ (_validate_references refs hs).1 ↔
            ∃ h ∈ hs, hPrilohaNum h.text = some ref.target)
         ∧ (ref ∈ (_validate_references refs hs).2 ↔
            ¬∃ h ∈ hs, hPrilohaNum h.text = some ref.target))))
    ∧ (extract_and_validate_references true "smlouva.docx"
        docClanek12).toOption.map RefsResult.valid =
        some [clanekRef "Článek 12 Smluvní pokuta"]
    ∧ (extract_and_validate_references true "smlouva.docx"
        docClanek12).toOption.map RefsResult.invalid = some []
    ∧ (extract_and_validate_references true "smlouva.docx"
        docClanek13).toOption.map RefsResult.valid = some []
    ∧ (extract_and_validate_references true "smlouva.docx"
        docClanek13).toOption.map RefsResult.invalid =
        some [clanekRef "Článek 13 Smluvní pokuta"] := by
  refine ⟨?_, rfl, rfl, rfl, rfl⟩
  intro refs hs ref hmem
  rw [validate_eq_filter]
  constructor
  · intro htype
    have hval : refIsValid (articleNums hs) (annexNums hs) ref =
        decide (firstDotSegment ref.target ∈ articleNums hs) := by
      simp [refIsValid, htype]
    constructor
    · simp only [List.mem_filter, hval]
      rw [← mem_articleNums]
      simp [hmem]
    · simp only [List.mem_filter, hval]
      rw [← mem_articleNums]
      simp [hmem]
  · intro htype
    have htype2 : ref.type ≠ "článek" := by rw [htype]; decide
    have hval : refIsValid (articleNums hs) (annexNums hs) ref =
        decide (ref.target ∈ annexNums hs) := by
      simp [refIsValid, htype, htype2]
    constructor
    · simp only [List.mem_filter, hval]
      rw [← mem_annexNums]
      simp [hmem]
    · simp only [List.mem_filter, hval]
      rw [← mem_annexNums]
      simp [hmem]

/-- C1 witness: the characterization applied to the concrete article
reference and heading list of the `Článek 12` document. -/
theorem reference_validity_characterized_witness :
    (clanekRef "Článek 12 Smluvní pokuta" ∈
        (_validate_references [clanekRef "Článek 12 Smluvní pokuta"]
          [⟨some 1, "Článek 12 Smluvní pokuta"⟩]).1 ↔
      ∃ h ∈ [(⟨some 1, "Článek 12 Smluvní pokuta"⟩ : HeadingLT)],
        hClanekNum h.text =
          some (firstDotSegment (clanekRef "Článek 12 Smluvní pokuta").target)) :=
  ((reference_validity_characterized.1
    [clanekRef "Článek 12 Smluvní pokuta"]
    [⟨some 1, "Článek 12 Smluvní pokuta"⟩]
    (clanekRef "Článek 12 Smluvní pokuta")
    (by decide)).1 rfl).1

/-! ## Whitespace checker lemmas (C7) -/

/-- The blank-tracking flag update, as the specification words it: a
heading resets the flag to false, any other paragraph overwrites it with
its own blankness. -/
def flagStep (_prev : Bool) (p : Paragraph) : Bool :=
  if (_detect_heading_level p).isSome then false
  else decide (pyStrip p.text = "")

/-- The value of the blank-tracking flag when the scan reaches index `i`:
the fold of the flag update over the first `i` paragraphs. -/
def specFlagBefore (ps : List Paragraph) (i : Nat) : Bool :=
  (ps.take i).foldl flagStep false

/-- The issue list contains a `consecutive_blank_paragraphs` issue at
paragraph index `i`. -/
def hasCBIssue (issues : List WIssue) (i : Nat) : Prop :=
  ∃ iss ∈ issues, iss.type = "consecutive_blank_paragraphs"
    ∧ iss.paragraph_index = i

theorem hasCBIssue_append {a b : List WIssue} {i : Nat} :
    hasCBIssue (a ++ b) i ↔ hasCBIssue a i ∨ hasCBIssue b i := by
  simp only [hasCBIssue, List.mem_append]
  constructor
  · rintro ⟨iss, (h | h), ht, hi⟩
    exacts [Or.inl ⟨iss, h, ht, hi⟩, Or.inr ⟨iss, h, ht, hi⟩]
  · rintro (⟨iss, h, ht, hi⟩ | ⟨iss, h, ht, hi⟩)
    exacts [⟨iss, Or.inl h, ht, hi⟩, ⟨iss, Or.inr h, ht, hi⟩]

theorem not_hasCBIssue_doubleSpace {idx : Nat} {sect : Option String}
    {text : String} {i : Nat} :
    ¬hasCBIssue (doubleSpaceIssues idx sect text) i := by
  rintro ⟨iss, hm, ht, _⟩
  simp only [doubleSpaceIssues, List.mem_map] at hm
  obtain ⟨se, _, rfl⟩ := hm
  simp at ht

theorem not_hasCBIssue_trailing {idx : Nat} {sect : Option String}
    {text : String} {i : Nat} :
    ¬hasCBIssue (trailingIssues idx sect text) i := by
  rintro ⟨iss, hm, ht, _⟩
  simp only [trailingIssues] at hm
  split_ifs at hm
  · simp only [List.mem_singleton] at hm
    subst hm
    simp at ht
  · simp at hm

theorem not_hasCBIssue_leading {idx : Nat} {sect : Option String}
    {p : Paragraph} {i : Nat} :
    ¬hasCBIssue (leadingIssues idx sect p) i := by
  rintro ⟨iss, hm, ht, _⟩
  simp only [leadingIssues] at hm
  split_ifs at hm
  · simp only [List.mem_singleton] at hm
    subst hm
    simp at ht
  · simp at hm

theorem cwLoop_cb_mem (full : List Paragraph) (i : Nat) :
    ∀ (rest : List Paragraph) (idx : Nat) (prev : Bool),
      hasCBIssue (cwLoop full rest idx prev) i ↔
        ∃ k p, rest.get? k = some p ∧ i = idx + k
          ∧ ¬(_detect_heading_level p).isSome ∧ pyStrip p.text = ""
          ∧ (rest.take k).foldl flagStep prev = true := by
  intro rest
  induction rest with
  | nil =>
      intro idx prev
      simp [cwLoop, hasCBIssue]
  | cons p rest' ih =>
      intro idx prev
      by_cases hh : (_detect_heading_level p).isSome
      · rw [show cwLoop full (p :: rest') idx prev =
            cwLoop full rest' (idx + 1) false by
          simp only [cwLoop]; rw [if_pos hh]]
        rw [ih]
        constructor
        · rintro ⟨k, q, hget, hi, hnh, hb, hf⟩
          refine ⟨k + 1, q, by simpa using hget, by omega, hnh, hb, ?_⟩
          simp only [List.take_succ_cons, List.foldl_cons]
          rw [show flagStep prev p = false by simp [flagStep, hh]]
          exact hf
        · rintro ⟨k, q, hget, hi, hnh, hb, hf⟩
          match k with
          | 0 =>
              simp only [List.get?_cons_zero, Option.some.injEq] at hget
              subst hget
              exact absurd hh hnh
          | k' + 1 =>
              refine ⟨k', q, by simpa using hget, by omega, hnh, hb, ?_⟩
              simp only [List.take_succ_cons, List.foldl_cons] at hf
              rw [show flagStep prev p = false by simp [flagStep, hh]] at hf
              exact hf
      · by_cases hb : pyStrip p.text = ""
        · rw [show cwLoop full (p :: rest') idx prev =
              (if pyStrip p.text = "" ∧ prev then
                [{ type := "consecutive_blank_paragraphs"
                   paragraph_index := idx
                   sectionLabel := _find_parent_heading full idx
                   text := ""
                   detail := "Multiple consecutive blank paragraphs" }]
               else []) ++ cwLoop full rest' (idx + 1) true by
            simp only [cwLoop]
            rw [if_neg hh, if_pos hb]]
          rw [hasCBIssue_append, ih]
          constructor
          · rintro (hcb | ⟨k, q, hget, hi, hnh, hbq, hf⟩)
            · rcases hcb with ⟨iss, hm, _, hidx⟩
              split_ifs at hm with hc
              · simp only [List.mem_singleton] at hm
                subst hm
                refine ⟨0, p, rfl, by simpa using hidx.symm, hh, hb, ?_⟩
                simpa using hc.2
              · simp at hm
            · refine ⟨k + 1, q, by simpa using hget, by omega, hnh, hbq, ?_⟩
              simp only [List.take_succ_cons, List.foldl_cons]
              rw [show flagStep prev p = true by simp [flagStep, hh, hb]]
              exact hf
          · rintro ⟨k, q, hget, hi, hnh, hbq, hf⟩
            match k with
            | 0 =>
                simp only [List.get?_cons_zero, Option.some.injEq] at hget
                subst hget
                simp only [List.take_zero, List.foldl_nil] at hf
                refine Or.inl ?_
                rw [if_pos ⟨hb, hf⟩]
                exact ⟨_, List.mem_singleton_self _, rfl, by show idx = i; omega⟩
            | k' + 1 =>
                refine Or.inr ⟨k', q, by simpa using hget, by omega, hnh, hbq, ?_⟩
                simp only [List.take_succ_cons, List.foldl_cons] at hf
                rw [show flagStep prev p = true by simp [flagStep, hh, hb]] at hf
                exact hf
        · rw [show cwLoop full (p :: rest') idx prev =
              doubleSpaceIssues idx (_find_parent_heading full idx) p.text ++
                trailingIssues idx (_find_parent_heading full idx) p.text ++
                leadingIssues idx (_find_parent_heading full idx) p ++
                cwLoop full rest' (idx + 1) false by
            simp only [cwLoop]
            rw [if_neg hh, if_neg hb, if_neg (fun hc => absurd hc.1 hb)]
            simp]
          rw [hasCBIssue_append, hasCBIssue_append, hasCBIssue_append, ih]
          constructor
          · rintro (((h1 | h1) | h1) | ⟨k, q, hget, hi, hnh, hbq, hf⟩)
            · exact absurd h1 not_hasCBIssue_doubleSpace
            · exact absurd h1 not_hasCBIssue_trailing
            · exact absurd h1 not_hasCBIssue_leading
            · refine ⟨k + 1, q, by simpa using hget, by omega, hnh, hbq, ?_⟩
              simp only [List.take_succ_cons, List.foldl_cons]
              rw [show flagStep prev p = false by simp [flagStep, hh, hb]]
              exact hf
          · rintro ⟨k, q, hget, hi, hnh, hbq, hf⟩
            match k with
            | 0 =>
                simp only [List.get?_cons_zero, Option.some.injEq] at hget
                subst hget
                exact absurd hbq hb
            | k' + 1 =>
                refine Or.inr ⟨k', q, by simpa using hget, by omega, hnh, hbq, ?_⟩
                simp only [List.take_succ_cons, List.foldl_cons] at hf
                rw [show flagStep prev p = false by simp [flagStep, hh, hb]] at hf
                exact hf

/-- C7: `check_whitespace` emits a `consecutive_blank_paragraphs` issue at
a paragraph exactly when that paragraph is a non-heading blank paragraph
and the blank-tracking flag — false initially, overwritten by each
non-heading paragraph's blankness, reset to false by each heading — is
true when the scan reaches it; in particular a blank paragraph, a heading
and another blank paragraph produce no such issue. -/
theorem consecutive_blank_characterized :
    (∀ (fp : String) (ps : List Paragraph),
      ∃ r, check_whitespace true fp ps = .ok r
        ∧ ∀ i : Nat, hasCBIssue r.issues i ↔
            ∃ p, ps.get? i = some p ∧ ¬(_detect_heading_level p).isSome
              ∧ pyStrip p.text = "" ∧ specFlagBefore ps i = true)
    ∧ wsIssues [{ text := "", styleName := "Normal" },
        { text := "Nadpis", styleName := "Heading 1" },
        { text := " ", styleName := "Normal" }] = [] := by
  constructor
  · intro fp ps
    refine ⟨_, rfl, ?_⟩
    intro i
    show hasCBIssue (wsIssues ps) i ↔ _
    rw [wsIssues, cwLoop_cb_mem]
    constructor
    · rintro ⟨k, p, hget, hi, hnh, hb, hf⟩
      have hk : k = i := by omega
      subst hk
      exact ⟨p, hget, hnh, hb, hf⟩
    · rintro ⟨p, hget, hnh, hb, hf⟩
      exact ⟨i, p, hget, by omega, hnh, hb, hf⟩
  · rfl

/-! ## Double-space scanner lemmas (C8) -/

/-- `(a, k)` positions a maximal run of two or more consecutive literal
spaces in `v`: `k ≥ 2` space characters starting at index `a`, with no
space immediately after and none immediately before. -/
def maxSpaceRun (v : List Char) (a k : Nat) : Prop :=
  2 ≤ k ∧ (∀ m, m < k → v[a + m]? = some ' ')
    ∧ v[a + k]? ≠ some ' '
    ∧ (a = 0 ∨ v[a - 1]? ≠ some ' ')

theorem maxSpaceRun_replicate {run a k : Nat} :
    maxSpaceRun (List.replicate run ' ') a k ↔
      a = 0 ∧ k = run ∧ 2 ≤ run := by
  constructor
  · rintro ⟨hk, hall, hend, hbound⟩
    have ha : a < run := by
      by_contra hge
      have := hall 0 (by omega)
      rw [List.getElem?_replicate, if_neg (by omega)] at this
      simp at this
    have hupper : a + k ≤ run := by
      by_contra hgt
      have := hall (run - a) (by omega)
      rw [List.getElem?_replicate, if_neg (by omega)] at this
      simp at this
    have hexact : a + k = run := by
      by_contra hne
      apply hend
      rw [List.getElem?_replicate, if_pos (by omega)]
    have ha0 : a = 0 := by
      rcases hbound with h | h
      · exact h
      · by_contra hne
        apply h
        rw [List.getElem?_replicate, if_pos (by omega)]
    exact ⟨ha0, by omega, by omega⟩
  · rintro ⟨rfl, rfl, h2⟩
    refine ⟨h2, ?_, ?_, Or.inl rfl⟩
    · intro m hm
      rw [List.getElem?_replicate, if_pos (by omega)]
    · rw [List.getElem?_replicate, if_neg (by omega)]
      simp

theorem maxSpaceRun_cons_nonspace {run : Nat} {c : Char} {cs : List Char}
    (hc : c ≠ ' ') {a k : Nat} :
    maxSpaceRun (List.replicate run ' ' ++ c :: cs) a k ↔
      (a = 0 ∧ k = run ∧ 2 ≤ run)
      ∨ (∃ a', a = run + 1 + a' ∧ maxSpaceRun cs a' k) := by
  have hlen : (List.replicate run ' ').length = run := List.length_replicate _ _
  have hv : ∀ i, (List.replicate run ' ' ++ c :: cs)[i]? =
      if i < run then some ' ' else (c :: cs)[i - run]? := by
    intro i
    rw [List.getElem?_append]
    rw [hlen]
    split_ifs with h
    · rw [List.getElem?_replicate, if_pos (by omega)]
    · rfl
  constructor
  · rintro ⟨hk, hall, hend, hbound⟩
    by_cases ha : a < run
    · left
      have hupper : a + k ≤ run := by
        by_contra hgt
        have hm : run - a < k := by omega
        have := hall (run - a) hm
        rw [hv] at this
        rw [if_neg (by omega)] at this
        rw [show a + (run - a) - run = 0 by omega] at this
        simp only [List.getElem?_cons_zero, Option.some.injEq] at this
        exact hc this
      have hexact : a + k = run := by
        by_contra hne
        apply hend
        rw [hv, if_pos (by omega)]
      have ha0 : a = 0 := by
        rcases hbound with h | h
        · exact h
        · by_contra hne
          apply h
          rw [hv, if_pos (by omega)]
      exact ⟨ha0, by omega, by omega⟩
    · right
      have ha1 : run + 1 ≤ a := by
        rcases Nat.lt_or_ge a (run + 1) with h | h
        · exfalso
          have haeq : a = run := by omega
          have := hall 0 (by omega)
          rw [hv, if_neg (by omega)] at this
          rw [show a + 0 - run = 0 by omega] at this
          simp only [List.getElem?_cons_zero, Option.some.injEq] at this
          exact hc this
        · exact h
      refine ⟨a - run - 1, by omega, hk, ?_, ?_, ?_⟩
      · intro m hm
        have := hall m hm
        rw [hv, if_neg (by omega)] at this
        rw [show a + m - run = (a - run - 1) + m + 1 by omega] at this
        simpa using this
      · intro hcon
        apply hend
        rw [hv, if_neg (by omega)]
        rw [show a + k - run = (a - run - 1) + k + 1 by omega]
        simpa using hcon
      · rcases Nat.eq_or_lt_of_le ha1 with h | h
        · left; omega
        · right
          intro hcon
          rcases hbound with hb | hb
          · omega
          · apply hb
            rw [hv, if_neg (by omega)]
            rw [show a - 1 - run = (a - run - 1) - 1 + 1 by omega]
            simpa using hcon
  · rintro (⟨ha0, hkr, h2⟩ | ⟨a', rfl, hk, hall, hend, hbound⟩)
    · subst ha0
      refine ⟨by omega, ?_, ?_, Or.inl rfl⟩
      · intro m hm
        rw [hv, if_pos (by omega)]
      · rw [hv, if_neg (by omega)]
        rw [show 0 + k - run = 0 by omega]
        simp only [List.getElem?_cons_zero, ne_eq, Option.some.injEq]
        exact hc
    · refine ⟨hk, ?_, ?_, ?_⟩
      · intro m hm
        rw [hv, if_neg (by omega)]
        rw [show run + 1 + a' + m - run = a' + m + 1 by omega]
        simpa using hall m hm
      · rw [hv, if_neg (by omega)]
        rw [show run + 1 + a' + k - run = a' + k + 1 by omega]
        simpa using hend
      · right
        by_cases ha0 : a' = 0
        · subst ha0
          rw [hv, if_neg (by omega)]
          rw [show run + 1 + 0 - 1 - run = 0 by omega]
          simp only [List.getElem?_cons_zero, ne_eq, Option.some.injEq]
          exact hc
        · rcases hbound with h0 | hb
          · exact absurd h0 ha0
          · rw [hv, if_neg (by omega)]
            rw [show run + 1 + a' - 1 - run = a' - 1 + 1 by omega]
            simpa using hb

theorem spaceRunsAux_mem : ∀ (l : List Char) (pos run j k : Nat),
    run ≤ pos →
    ((j, k) ∈ spaceRunsAux l pos run ↔
      ∃ a, j = (pos - run) + a
        ∧ maxSpaceRun (List.replicate run ' ' ++ l) a k) := by
  intro l
  induction l with
  | nil =>
      intro pos run j k hrp
      simp only [spaceRunsAux, List.append_nil]
      constructor
      · intro hm
        split_ifs at hm with h2
        · simp only [List.mem_singleton, Prod.mk.injEq] at hm
          exact ⟨0, by omega, maxSpaceRun_replicate.mpr ⟨rfl, hm.2, h2⟩⟩
        · simp at hm
      · rintro ⟨a, rfl, hmax⟩
        obtain ⟨ha0, hkr, h2⟩ := maxSpaceRun_replicate.mp hmax
        subst ha0
        rw [if_pos h2]
        simp [hkr]
  | cons c cs ih =>
      intro pos run j k hrp
      by_cases hc : c = ' '
      · subst hc
        rw [show spaceRunsAux (' ' :: cs) pos run =
            spaceRunsAux cs (pos + 1) (run + 1) by
          simp [spaceRunsAux]]
        rw [ih (pos + 1) (run + 1) j k (by omega)]
        rw [show pos + 1 - (run + 1) = pos - run by omega]
        rw [show List.replicate (run + 1) ' ' ++ cs =
            List.replicate run ' ' ++ ' ' :: cs by
          rw [List.replicate_succ']
          simp]
      · rw [show spaceRunsAux (c :: cs) pos run =
            (if 2 ≤ run then [(pos - run, run)] else []) ++
              spaceRunsAux cs (pos + 1) 0 by
          simp only [spaceRunsAux]
          rw [if_neg hc]]
        rw [List.mem_append, ih (pos + 1) 0 j k (by omega)]
        simp only [List.replicate_zero, List.nil_append, Nat.sub_zero]
        constructor
        · rintro (hm | ⟨a', rfl, hmax⟩)
          · split_ifs at hm with h2
            · simp only [List.mem_singleton, Prod.mk.injEq] at hm
              exact ⟨0, by omega,
                (maxSpaceRun_cons_nonspace hc).mpr (Or.inl ⟨rfl, hm.2, h2⟩)⟩
            · simp at hm
          · refine ⟨run + 1 + a', by omega, ?_⟩
            exact (maxSpaceRun_cons_nonspace hc).mpr (Or.inr ⟨a', rfl, hmax⟩)
        · rintro ⟨a, rfl, hmax⟩
          rcases (maxSpaceRun_cons_nonspace hc).mp hmax with
            ⟨rfl, rfl, h2⟩ | ⟨a', rfl, hmax'⟩
          · left
            rw [if_pos h2]
            simp
          · right
            exact ⟨a', by omega, hmax'⟩

/-- The scanner finds exactly the maximal runs of two or more spaces. -/
theorem spaceRuns_mem (l : List Char) (j k : Nat) :
    (j, k) ∈ spaceRuns l ↔ maxSpaceRun l j k := by
  rw [spaceRuns, spaceRunsAux_mem l 0 0 j k (Nat.le_refl 0)]
  simp only [List.replicate_zero, List.nil_append, Nat.sub_zero]
  constructor
  · rintro ⟨a, rfl, h⟩
    simpa using h
  · intro h
    exact ⟨j, by omega, h⟩

/-- The number of `double_space` issues attributed to paragraph `i`. -/
def dsCount (issues : List WIssue) (i : Nat) : Nat :=
  (issues.filter fun iss =>
    decide (iss.type = "double_space" ∧ iss.paragraph_index = i)).length

theorem dsCount_append (a b : List WIssue) (i : Nat) :
    dsCount (a ++ b) i = dsCount a i + dsCount b i := by
  simp [dsCount, List.filter_append]

theorem dsCount_doubleSpace (idx : Nat) (sect : Option String)
    (text : String) (i : Nat) :
    dsCount (doubleSpaceIssues idx sect text) i =
      if idx = i then (spaceRuns text.data).length else 0 := by
  unfold doubleSpaceIssues
  generalize spaceRuns text.data = rs
  induction rs with
  | nil => simp [dsCount]
  | cons r rs ih =>
      by_cases hidx : idx = i
      · simp only [dsCount, List.map_cons, List.filter_cons] at ih ⊢
        simp only [hidx] at ih ⊢
        simp at ih ⊢
        omega
      · simp only [dsCount, List.map_cons, List.filter_cons] at ih ⊢
        simp only [if_neg hidx] at ih ⊢
        simp [hidx] at ih ⊢
        exact ih

theorem dsCount_trailing (idx : Nat) (sect : Option String) (text : String)
    (i : Nat) : dsCount (trailingIssues idx sect text) i = 0 := by
  unfold trailingIssues dsCount
  split_ifs <;> simp

theorem dsCount_leading (idx : Nat) (sect : Option String) (p : Paragraph)
    (i : Nat) : dsCount (leadingIssues idx sect p) i = 0 := by
  unfold leadingIssues dsCount
  split_ifs <;> simp

theorem doubleSpace_index {idx : Nat} {sect : Option String} {text : String}
    {iss : WIssue} (h : iss ∈ doubleSpaceIssues idx sect text) :
    iss.paragraph_index = idx := by
  simp only [doubleSpaceIssues, List.mem_map] at h
  obtain ⟨se, _, rfl⟩ := h
  rfl

theorem trailing_index {idx : Nat} {sect : Option String} {text : String}
    {iss : WIssue} (h : iss ∈ trailingIssues idx sect text) :
    iss.paragraph_index = idx := by
  simp only [trailingIssues] at h
  split_ifs at h
  · simp only [List.mem_singleton] at h
    subst h
    rfl
  · simp at h

theorem leading_index {idx : Nat} {sect : Option String} {p : Paragraph}
    {iss : WIssue} (h : iss ∈ leadingIssues idx sect p) :
    iss.paragraph_index = idx := by
  simp only [leadingIssues] at h
  split_ifs at h
  · simp only [List.mem_singleton] at h
    subst h
    rfl
  · simp at h

theorem cwLoop_index_ge (full : List Paragraph) :
    ∀ (rest : List Paragraph) (idx : Nat) (prev : Bool),
      ∀ iss ∈ cwLoop full rest idx prev, idx ≤ iss.paragraph_index := by
  intro rest
  induction rest with
  | nil =>
      intro idx prev iss h
      simp [cwLoop] at h
  | cons p rest' ih =>
      intro idx prev iss h
      by_cases hh : (_detect_heading_level p).isSome
      · rw [show cwLoop full (p :: rest') idx prev =
            cwLoop full rest' (idx + 1) false by
          simp only [cwLoop]; rw [if_pos hh]] at h
        have := ih (idx + 1) false iss h
        omega
      · by_cases hb : pyStrip p.text = ""
        · rw [show cwLoop full (p :: rest') idx prev =
              (if pyStrip p.text = "" ∧ prev then
                [{ type := "consecutive_blank_paragraphs"
                   paragraph_index := idx
                   sectionLabel := _find_parent_heading full idx
                   text := ""
                   detail := "Multiple consecutive blank paragraphs" }]
               else []) ++ cwLoop full rest' (idx + 1) true by
            simp only [cwLoop]
            rw [if_neg hh, if_pos hb]] at h
          rcases List.mem_append.mp h with h | h
          · split_ifs at h
            · simp only [List.mem_singleton] at h
              subst h
              exact Nat.le_refl idx
            · simp at h
          · have := ih (idx + 1) true iss h
            omega
        · rw [show cwLoop full (p :: rest') idx prev =
              doubleSpaceIssues idx (_find_parent_heading full idx) p.text ++
                trailingIssues idx (_find_parent_heading full idx) p.text ++
                leadingIssues idx (_find_parent_heading full idx) p ++
                cwLoop full rest' (idx + 1) false by
            simp only [cwLoop]
            rw [if_neg hh, if_neg hb, if_neg (fun hc => absurd hc.1 hb)]
            simp] at h
          rcases List.mem_append.mp h with h | h
          · rcases List.mem_append.mp h with h | h
            · rcases List.mem_append.mp h with h | h
              · exact (doubleSpace_index h).ge
              · exact (trailing_index h).ge
            · exact (leading_index h).ge
          · have := ih (idx + 1) false iss h
            omega

theorem dsCount_zero_of_ne (issues : List WIssue) (i : Nat)
    (h : ∀ iss ∈ issues, iss.paragraph_index ≠ i) : dsCount issues i = 0 := by
  unfold dsCount
  rw [List.length_eq_zero]
  rw [List.filter_eq_nil_iff]
  intro iss hm
  simp only [decide_eq_true_eq, not_and]
  intro _
  exact h iss hm

theorem cwLoop_ds_count (full : List Paragraph) (i : Nat) :
    ∀ (rest : List Paragraph) (idx : Nat) (prev : Bool) (k : Nat)
      (p : Paragraph),
      rest.get? k = some p → i = idx + k →
      ¬(_detect_heading_level p).isSome → pyStrip p.text ≠ "" →
      dsCount (cwLoop full rest idx prev) i =
        (spaceRuns p.text.data).length := by
  intro rest
  induction rest with
  | nil =>
      intro idx prev k p hget
      simp at hget
  | cons q rest' ih =>
      intro idx prev k p hget hi hnh hnb
      match k with
      | 0 =>
          simp only [List.get?_cons_zero, Option.some.injEq] at hget
          subst hget
          rw [show cwLoop full (q :: rest') idx prev =
              doubleSpaceIssues idx (_find_parent_heading full idx) q.text ++
                trailingIssues idx (_find_parent_heading full idx) q.text ++
                leadingIssues idx (_find_parent_heading full idx) q ++
                cwLoop full rest' (idx + 1) false by
            simp only [cwLoop]
            rw [if_neg hnh, if_neg hnb, if_neg (fun hc => absurd hc.1 hnb)]
            simp]
          rw [dsCount_append, dsCount_append, dsCount_append,
            dsCount_doubleSpace, if_pos (by omega), dsCount_trailing,
            dsCount_leading]
          have hrec : dsCount (cwLoop full rest' (idx + 1) false) i = 0 := by
            apply dsCount_zero_of_ne
            intro iss hm
            have := cwLoop_index_ge full rest' (idx + 1) false iss hm
            omega
          omega
      | k' + 1 =>
          have hget' : rest'.get? k' = some p := by simpa using hget
          have hi' : i = (idx + 1) + k' := by omega
          by_cases hh : (_detect_heading_level q).isSome
          · rw [show cwLoop full (q :: rest') idx prev =
                cwLoop full rest' (idx + 1) false by
              simp only [cwLoop]; rw [if_pos hh]]
            exact ih (idx + 1) false k' p hget' hi' hnh hnb
          · by_cases hb : pyStrip q.text = ""
            · rw [show cwLoop full (q :: rest') idx prev =
                  (if pyStrip q.text = "" ∧ prev then
                    [{ type := "consecutive_blank_paragraphs"
                       paragraph_index := idx
                       sectionLabel := _find_parent_heading full idx
                       text := ""
                       detail := "Multiple consecutive blank paragraphs" }]
                   else []) ++ cwLoop full rest' (idx + 1) true by
                simp only [cwLoop]
                rw [if_neg hh, if_pos hb]]
              rw [dsCount_append]
              have hcb : dsCount (if pyStrip q.text = "" ∧ prev then
                  [{ type := "consecutive_blank_paragraphs"
                     paragraph_index := idx
                     sectionLabel := _find_parent_heading full idx
                     text := ""
                     detail := "Multiple consecutive blank paragraphs" }]
                 else []) i = 0 := by
                apply dsCount_zero_of_ne
                intro iss hm
                split_ifs at hm
                · simp only [List.mem_singleton] at hm
                  subst hm
                  show idx ≠ i
                  omega
                · simp at hm
              rw [hcb, ih (idx + 1) true k' p hget' hi' hnh hnb]
              omega
            · rw [show cwLoop full (q :: rest') idx prev =
                  doubleSpaceIssues idx (_find_parent_heading full idx)
                      q.text ++
                    trailingIssues idx (_find_parent_heading full idx)
                      q.text ++
                    leadingIssues idx (_find_parent_heading full idx) q ++
                    cwLoop full rest' (idx + 1) false by
                simp only [cwLoop]
                rw [if_neg hh, if_neg hb, if_neg (fun hc => absurd hc.1 hb)]
                simp]
              rw [dsCount_append, dsCount_append, dsCount_append,
                dsCount_doubleSpace, if_neg (by omega), dsCount_trailing,
                dsCount_leading, ih (idx + 1) false k' p hget' hi' hnh hnb]
              omega

/-- C8: `check_whitespace` emits one `double_space` issue per maximal run
of two or more consecutive literal spaces: the scanner's matches are
exactly the maximal space runs, a non-blank non-heading paragraph
contributes exactly one `double_space` issue per match, and concretely
`"foo  bar"` yields exactly one issue whose detail reports offset 3 while
`"foo   bar"` (three spaces) still yields exactly one issue, not two. -/
theorem double_space_issues_per_run :
    (∀ (l : List Char) (j k : Nat), (j, k) ∈ spaceRuns l ↔ maxSpaceRun l j k)
    ∧ (∀ (fp : String) (ps : List Paragraph) (i : Nat) (p : Paragraph),
        ps.get? i = some p → ¬(_detect_heading_level p).isSome →
        pyStrip p.text ≠ "" →
        ∃ r, check_whitespace true fp ps = .ok r
          ∧ dsCount r.issues i = (spaceRuns p.text.data).length)
    ∧ wsIssues [{ text := "foo  bar", styleName := "Normal" }] =
        [{ type := "double_space", paragraph_index := 0, sectionLabel := none,
           text := "foo  bar",
           detail := "Multiple spaces at position 3: \"…foo  bar…\"" }]
    ∧ wsIssues [{ text := "foo   bar", styleName := "Normal" }] =
        [{ type := "double_space", paragraph_index := 0, sectionLabel := none,
           text := "foo   bar",
           detail := "Multiple spaces at position 3: \"…foo   bar…\"" }] := by
  refine ⟨spaceRuns_mem, ?_, rfl, rfl⟩
  intro fp ps i p hget hnh hnb
  refine ⟨_, rfl, ?_⟩
  show dsCount (wsIssues ps) i = _
  exact cwLoop_ds_count ps i ps 0 false i p hget (by omega) hnh hnb

/-- C8 witness: the per-run count applied to the single-paragraph document
`"foo  bar"`. -/
theorem double_space_issues_per_run_witness :
    ∃ r, check_whitespace true "smlouva.docx"
        [{ text := "foo  bar", styleName := "Normal" }] = .ok r
      ∧ dsCount r.issues 0 =
          (spaceRuns ("foo  bar" : String).data).length :=
  double_space_issues_per_run.2.1 "smlouva.docx"
    [{ text := "foo  bar", styleName := "Normal" }] 0
    { text := "foo  bar", styleName := "Normal" } rfl (by decide) (by decide)

/-! ## Section attribution before the first heading (C10) -/

/-- No heading occurs among the first `i` paragraphs. -/
def noHeadingBefore (ps : List Paragraph) (i : Nat) : Prop :=
  ∀ j p, j < i → ps.get? j = some p → ¬(_detect_heading_level p).isSome

/-- Some heading occurs among the first `i` paragraphs. -/
def headingBefore (ps : List Paragraph) (i : Nat) : Prop :=
  ∃ j, j < i ∧ ∃ p, ps.get? j = some p ∧ (_detect_heading_level p).isSome

theorem find_parent_heading_none (ps : List Paragraph) :
    ∀ i : Nat, noHeadingBefore ps i → _find_parent_heading ps i = none := by
  intro i
  induction i with
  | zero => intro _; rfl
  | succ i ih =>
      intro hno
      rw [_find_parent_heading]
      have ih' := ih (fun j p hj hget => hno j p (by omega) hget)
      match hget : ps.get? i with
      | some p =>
          show (if (_detect_heading_level p).isSome = true
            then some (pyStrip p.text) else _find_parent_heading ps i) = none
          rw [if_neg (hno i p (by omega) hget)]
          exact ih'
      | none =>
          show _find_parent_heading ps i = none
          exact ih'

theorem doubleSpace_section {idx : Nat} {sect : Option String} {text : String}
    {iss : WIssue} (h : iss ∈ doubleSpaceIssues idx sect text) :
    iss.sectionLabel = sect := by
  simp only [doubleSpaceIssues, List.mem_map] at h
  obtain ⟨se, _, rfl⟩ := h
  rfl

theorem trailing_section {idx : Nat} {sect : Option String} {text : String}
    {iss : WIssue} (h : iss ∈ trailingIssues idx sect text) :
    iss.sectionLabel = sect := by
  simp only [trailingIssues] at h
  split_ifs at h
  · simp only [List.mem_singleton] at h
    subst h
    rfl
  · simp at h

theorem leading_section {idx : Nat} {sect : Option String} {p : Paragraph}
    {iss : WIssue} (h : iss ∈ leadingIssues idx sect p) :
    iss.sectionLabel = sect := by
  simp only [leadingIssues] at h
  split_ifs at h
  · simp only [List.mem_singleton] at h
    subst h
    rfl
  · simp at h

/-- Every whitespace issue's section label is the backward nearest-heading
lookup at its own paragraph index. -/
theorem cwLoop_section (full : List Paragraph) :
    ∀ (rest : List Paragraph) (idx : Nat) (prev : Bool),
      ∀ iss ∈ cwLoop full rest idx prev,
        iss.sectionLabel = _find_parent_heading full iss.paragraph_index := by
  intro rest
  induction rest with
  | nil =>
      intro idx prev iss h
      simp [cwLoop] at h
  | cons p rest' ih =>
      intro idx prev iss h
      by_cases hh : (_detect_heading_level p).isSome
      · rw [show cwLoop full (p :: rest') idx prev =
            cwLoop full rest' (idx + 1) false by
          simp only [cwLoop]; rw [if_pos hh]] at h
        exact ih (idx + 1) false iss h
      · by_cases hb : pyStrip p.text = ""
        · rw [show cwLoop full (p :: rest') idx prev =
              (if pyStrip p.text = "" ∧ prev then
                [{ type := "consecutive_blank_paragraphs"
                   paragraph_index := idx
                   sectionLabel := _find_parent_heading full idx
                   text := ""
                   detail := "Multiple consecutive blank paragraphs" }]
               else []) ++ cwLoop full rest' (idx + 1) true by
            simp only [cwLoop]
            rw [if_neg hh, if_pos hb]] at h
          rcases List.mem_append.mp h with h | h
          · split_ifs at h
            · simp only [List.mem_singleton] at h
              subst h
              rfl
            · simp at h
          · exact ih (idx + 1) true iss h
        · rw [show cwLoop full (p :: rest') idx prev =
              doubleSpaceIssues idx (_find_parent_heading full idx) p.text ++
                trailingIssues idx (_find_parent_heading full idx) p.text ++
                leadingIssues idx (_find_parent_heading full idx) p ++
                cwLoop full rest' (idx + 1) false by
            simp only [cwLoop]
            rw [if_neg hh, if_neg hb, if_neg (fun hc => absurd hc.1 hb)]
            simp] at h
          rcases List.mem_append.mp h with h | h
          · rcases List.mem_append.mp h with h | h
            · rcases List.mem_append.mp h with h | h
              · rw [doubleSpace_section h, doubleSpace_index h]
              · rw [trailing_section h, trailing_index h]
            · rw [leading_section h, leading_index h]
          · exact ih (idx + 1) false iss h

theorem flushIssues_fields {run : List EnumItem} {iss : EIssue}
    (h : iss ∈ flushIssues run) :
    ∃ first, run.head? = some first
      ∧ iss.sectionLabel = first.sectionLabel
      ∧ iss.paragraph_index = first.paragraph_index := by
  match run with
  | [] => simp [flushIssues] at h
  | first :: rest =>
      simp only [flushIssues, List.mem_map] at h
      obtain ⟨prob, _, rfl⟩ := h
      exact ⟨first, rfl, rfl, rfl⟩

/-- Every enumeration issue whose section label is set is preceded by a
heading (strictly before its paragraph index) in the document. -/
theorem ceLoop_section (PS : List Paragraph) :
    ∀ (rest : List Paragraph) (idx : Nat) (run : List EnumItem)
      (sect : Option String),
      (∀ k p, rest.get? k = some p → PS.get? (idx + k) = some p) →
      (sect ≠ none → headingBefore PS idx) →
      (∀ it ∈ run, it.sectionLabel ≠ none →
        headingBefore PS it.paragraph_index) →
      ∀ iss ∈ ceLoop rest idx run sect, iss.sectionLabel ≠ none →
        headingBefore PS iss.paragraph_index := by
  intro rest
  induction rest with
  | nil =>
      intro idx run sect _ _ hrun iss h hne
      obtain ⟨first, hhead, hsec, hidx⟩ :=
        flushIssues_fields (by simpa [ceLoop] using h)
      rw [hsec] at hne
      rw [hidx]
      exact hrun first (List.mem_of_mem_head? hhead) hne
  | cons p rest' ih =>
      intro idx run sect hlink hsect hrun iss h hne
      have hlink' : ∀ k q, rest'.get? k = some q →
          PS.get? (idx + 1 + k) = some q := by
        intro k q hk
        have := hlink (k + 1) q (by simpa using hk)
        rwa [show idx + (k + 1) = idx + 1 + k by omega] at this
      by_cases hh : (_detect_heading_level p).isSome
      · rw [show ceLoop (p :: rest') idx run sect =
            flushIssues run ++
              ceLoop rest' (idx + 1) [] (some (pyStrip p.text)) by
          simp only [ceLoop]; rw [if_pos hh]] at h
        rcases List.mem_append.mp h with h | h
        · obtain ⟨first, hhead, hsec, hidx⟩ := flushIssues_fields h
          rw [hsec] at hne
          rw [hidx]
          exact hrun first (List.mem_of_mem_head? hhead) hne
        · refine ih (idx + 1) [] (some (pyStrip p.text)) hlink' ?_
            (by intro it hit; simp at hit) iss h hne
          intro _
          exact ⟨idx, by omega, p, by simpa using hlink 0 p rfl, hh⟩
      · by_cases hb : pyStrip p.text = ""
        · rw [show ceLoop (p :: rest') idx run sect =
              flushIssues run ++ ceLoop rest' (idx + 1) [] sect by
            simp only [ceLoop]; rw [if_neg hh, if_pos hb]] at h
          rcases List.mem_append.mp h with h | h
          · obtain ⟨first, hhead, hsec, hidx⟩ := flushIssues_fields h
            rw [hsec] at hne
            rw [hidx]
            exact hrun first (List.mem_of_mem_head? hhead) hne
          · refine ih (idx + 1) [] sect hlink'
              (fun hs => (hsect hs).imp fun j hj => ⟨by omega, hj.2⟩)
              (by intro it hit; simp at hit) iss h hne
        · match hpat : _detect_text_list_pattern p.text with
          | none =>
              rw [show ceLoop (p :: rest') idx run sect =
                  flushIssues run ++ ceLoop rest' (idx + 1) [] sect by
                simp only [ceLoop]
                rw [if_neg hh, if_neg hb]
                simp only [hpat]] at h
              rcases List.mem_append.mp h with h | h
              · obtain ⟨first, hhead, hsec, hidx⟩ := flushIssues_fields h
                rw [hsec] at hne
                rw [hidx]
                exact hrun first (List.mem_of_mem_head? hhead) hne
              · refine ih (idx + 1) [] sect hlink'
                  (fun hs => (hsect hs).imp fun j hj => ⟨by omega, hj.2⟩)
                  (by intro it hit; simp at hit) iss h hne
          | some info =>
              have hitem : ∀ it ∈ [(⟨idx, sect, p.text, info.style,
                  info.marker⟩ : EnumItem)],
                  it.sectionLabel ≠ none → headingBefore PS it.paragraph_index := by
                intro it hit hs
                simp only [List.mem_singleton] at hit
                subst hit
                exact (hsect hs).imp fun j hj => ⟨hj.1, hj.2⟩
              match hlast : run.getLast? with
              | some lastIt =>
                  by_cases hstyle : lastIt.style ≠ info.style
                  · rw [show ceLoop (p :: rest') idx run sect =
                        flushIssues run ++ ceLoop rest' (idx + 1)
                          [⟨idx, sect, p.text, info.style, info.marker⟩]
                          sect by
                      simp only [ceLoop]
                      rw [if_neg hh, if_neg hb]
                      simp only [hpat, hlast]
                      rw [if_pos hstyle]] at h
                    rcases List.mem_append.mp h with h | h
                    · obtain ⟨first, hhead, hsec, hidx⟩ := flushIssues_fields h
                      rw [hsec] at hne
                      rw [hidx]
                      exact hrun first (List.mem_of_mem_head? hhead) hne
                    · refine ih (idx + 1)
                        [⟨idx, sect, p.text, info.style, info.marker⟩]
                        sect hlink'
                        (fun hs => (hsect hs).imp fun j hj => ⟨by omega, hj.2⟩)
                        hitem iss h hne
                  · rw [show ceLoop (p :: rest') idx run sect =
                        ceLoop rest' (idx + 1)
                          (run ++ [⟨idx, sect, p.text, info.style,
                            info.marker⟩]) sect by
                      simp only [ceLoop]
                      rw [if_neg hh, if_neg hb]
                      simp only [hpat, hlast]
                      rw [if_neg hstyle]] at h
                    refine ih (idx + 1) _ sect hlink'
                      (fun hs => (hsect hs).imp fun j hj => ⟨by omega, hj.2⟩)
                      ?_ iss h hne
                    intro it hit
                    rcases List.mem_append.mp hit with hit | hit
                    · exact hrun it hit
                    · exact hitem it hit
              | none =>
                  rw [show ceLoop (p :: rest') idx run sect =
                      ceLoop rest' (idx + 1)
                        [⟨idx, sect, p.text, info.style, info.marker⟩]
                        sect by
                    simp only [ceLoop]
                    rw [if_neg hh, if_neg hb]
                    simp only [hpat, hlast]] at h
                  exact ih (idx + 1) _ sect hlink'
                    (fun hs => (hsect hs).imp fun j hj => ⟨by omega, hj.2⟩)
                    hitem iss h hne

theorem paraTextRefs_fields {text : String} {sect : Option String}
    {idx : Nat} {r : Ref} (h : r ∈ paraTextRefs text sect idx) :
    r.sectionLabel = sect ∧ r.paragraph_index = idx := by
  simp only [paraTextRefs, List.mem_append, List.mem_map] at h
  rcases h with ((⟨x, _, rfl⟩ | ⟨x, _, rfl⟩) | ⟨x, _, rfl⟩) | ⟨x, _, rfl⟩ <;>
    exact ⟨rfl, rfl⟩

/-- Every extracted text reference whose section label is set is preceded
by a heading in the document. -/
theorem etrLoop_section (PS : List Paragraph) :
    ∀ (rest : List Paragraph) (idx : Nat) (sect : Option String),
      (∀ k p, rest.get? k = some p → PS.get? (idx + k) = some p) →
      (sect ≠ none → headingBefore PS idx) →
      ∀ ref ∈ etrLoop rest idx sect, ref.sectionLabel ≠ none →
        headingBefore PS ref.paragraph_index := by
  intro rest
  induction rest with
  | nil =>
      intro idx sect _ _ ref h
      simp [etrLoop] at h
  | cons p rest' ih =>
      intro idx sect hlink hsect ref h hne
      have hlink' : ∀ k q, rest'.get? k = some q →
          PS.get? (idx + 1 + k) = some q := by
        intro k q hk
        have := hlink (k + 1) q (by simpa using hk)
        rwa [show idx + (k + 1) = idx + 1 + k by omega] at this
      by_cases hh : (_detect_heading_level p).isSome
      · rw [show etrLoop (p :: rest') idx sect =
            etrLoop rest' (idx + 1) (some (pyStrip p.text)) by
          simp only [etrLoop]; rw [if_pos hh]] at h
        refine ih (idx + 1) _ hlink' ?_ ref h hne
        intro _
        exact ⟨idx, by omega, p, by simpa using hlink 0 p rfl, hh⟩
      · by_cases hb : pyStrip p.text = ""
        · rw [show etrLoop (p :: rest') idx sect =
              etrLoop rest' (idx + 1) sect by
            simp only [etrLoop]; rw [if_neg hh, if_pos hb]] at h
          exact ih (idx + 1) sect hlink'
            (fun hs => (hsect hs).imp fun j hj => ⟨by omega, hj.2⟩)
            ref h hne
        · rw [show etrLoop (p :: rest') idx sect =
              paraTextRefs p.text sect idx ++ etrLoop rest' (idx + 1) sect by
            simp only [etrLoop]; rw [if_neg hh, if_neg hb]] at h
          rcases List.mem_append.mp h with h | h
          · obtain ⟨hs, hidx⟩ := paraTextRefs_fields h
            rw [hs] at hne
            rw [hidx]
            exact hsect hne
          · exact ih (idx + 1) sect hlink'
              (fun hs => (hsect hs).imp fun j hj => ⟨by omega, hj.2⟩)
              ref h hne

/-- C10: any issue or reference attributed to a paragraph that no heading
precedes carries a null section label: the whitespace checker's backward
scan returns null there, and the enumeration checker's and the free-text
reference extractor's running section labels are still null when such a
paragraph is processed. -/
theorem pre_first_heading_section_none :
    (∀ (fp : String) (ps : List Paragraph) (i : Nat), noHeadingBefore ps i →
      ∃ r, check_whitespace true fp ps = .ok r ∧
        ∀ iss ∈ r.issues, iss.paragraph_index = i → iss.sectionLabel = none)
    ∧ (∀ (fp : String) (ps : List Paragraph) (i : Nat), noHeadingBefore ps i →
      ∃ r, check_enumerations true fp ps = .ok r ∧
        ∀ iss ∈ r.issues, iss.paragraph_index = i → iss.sectionLabel = none)
    ∧ (∀ (ps : List Paragraph) (i : Nat), noHeadingBefore ps i →
      ∀ ref ∈ _extract_text_references ps, ref.paragraph_index = i →
        ref.sectionLabel = none) := by
  have hcontra : ∀ (ps : List Paragraph) (i : Nat), noHeadingBefore ps i →
      ¬headingBefore ps i := by
    rintro ps i hno ⟨j, hj, p, hget, hh⟩
    exact hno j p hj hget hh
  refine ⟨?_, ?_, ?_⟩
  · intro fp ps i hno
    refine ⟨_, rfl, ?_⟩
    intro iss hm hidx
    have hs := cwLoop_section ps ps 0 false iss hm
    rw [hs, hidx]
    exact find_parent_heading_none ps i hno
  · intro fp ps i hno
    refine ⟨_, rfl, ?_⟩
    intro iss hm hidx
    by_contra hne
    have hb := ceLoop_section ps ps 0 [] none
      (by intro k p hk; simpa using hk)
      (by intro hc; exact absurd rfl hc)
      (by intro it hit; simp at hit) iss hm hne
    rw [hidx] at hb
    exact hcontra ps i hno hb
  · intro ps i hno ref hm hidx
    by_contra hne
    have hb := etrLoop_section ps ps 0 none
      (by intro k p hk; simpa using hk)
      (by intro hc; exact absurd rfl hc) ref hm hne
    rw [hidx] at hb
    exact hcontra ps i hno hb

/-- C10 witness: the attribution facts applied to a one-paragraph document
(no heading anywhere) whose paragraph has a double space and an article
reference. -/
theorem pre_first_heading_section_none_witness :
    (∃ r, check_whitespace true "s.docx"
        [{ text := "viz čl. 3  konec", styleName := "Normal" }] = .ok r ∧
      ∀ iss ∈ r.issues, iss.paragraph_index = 0 → iss.sectionLabel = none)
    ∧ (∃ r, check_enumerations true "s.docx"
        [{ text := "viz čl. 3  konec", styleName := "Normal" }] = .ok r ∧
      ∀ iss ∈ r.issues, iss.paragraph_index = 0 → iss.sectionLabel = none)
    ∧ (∀ ref ∈ _extract_text_references
        [{ text := "viz čl. 3  konec", styleName := "Normal" }],
        ref.paragraph_index = 0 → ref.sectionLabel = none) :=
  have hno : noHeadingBefore
      [{ text := "viz čl. 3  konec", styleName := "Normal" }] 0 :=
    fun j _ hj _ => absurd hj (Nat.not_lt_zero j)
  ⟨pre_first_heading_section_none.1 "s.docx" _ 0 hno,
   pre_first_heading_section_none.2.1 "s.docx" _ 0 hno,
   pre_first_heading_section_none.2.2 _ 0 hno⟩

end LawyerAssistant
